import Mathlib

/-!
Verification development for the docsray-mcp document-processing server.

Each definition is a shallow embedding of a Python function from the
repository (file and symbol named in its doc comment).  Python dicts are
embedded as association lists in insertion order, JSON payloads as the
inductive type `JValue`, floats appearing in the scoring formula as
rationals (every constant involved is exactly representable), and the
SHA-256 digest as an abstract function parameter (its only property used
by the source is determinism; injectivity is assumed explicitly where a
claim needs collision-freeness).
-/

namespace Docsray

/-- JSON-like values, embedding the Python value universe that flows through
`json.dumps` in `src/docsray/utils/cache.py`.  Numbers are embedded as `Int`
(the option payloads the repository builds use ints and strings only). -/
inductive JValue where
  | null : JValue
  | bool : Bool → JValue
  | num : Int → JValue
  | str : String → JValue
  | arr : List JValue → JValue
  | obj : List (String × JValue) → JValue

mutual

/-- Boolean equality on `JValue` (deriving is unavailable for this nested
inductive, so decidable equality is built by hand). -/
def jvBeq : JValue → JValue → Bool
  | .null, .null => true
  | .bool a, .bool b => a == b
  | .num a, .num b => a == b
  | .str a, .str b => a == b
  | .arr xs, .arr ys => jvBeqList xs ys
  | .obj xs, .obj ys => jvBeqPairs xs ys
  | _, _ => false

/-- Boolean equality on lists of `JValue`. -/
def jvBeqList : List JValue → List JValue → Bool
  | [], [] => true
  | x :: xs, y :: ys => jvBeq x y && jvBeqList xs ys
  | _, _ => false

/-- Boolean equality on association lists of `JValue`. -/
def jvBeqPairs : List (String × JValue) → List (String × JValue) → Bool
  | [], [] => true
  | (k, v) :: xs, (l, w) :: ys => k == l && jvBeq v w && jvBeqPairs xs ys
  | _, _ => false

end

mutual

theorem jvBeq_eq : ∀ a b : JValue, jvBeq a b = true → a = b
  | .null, .null, _ => rfl
  | .bool a, .bool b, h => by
    simp only [jvBeq, beq_iff_eq] at h; exact congrArg JValue.bool h
  | .num a, .num b, h => by
    simp only [jvBeq, beq_iff_eq] at h; exact congrArg JValue.num h
  | .str a, .str b, h => by
    simp only [jvBeq, beq_iff_eq] at h; exact congrArg JValue.str h
  | .arr xs, .arr ys, h => congrArg JValue.arr (jvBeqList_eq xs ys h)
  | .obj xs, .obj ys, h => congrArg JValue.obj (jvBeqPairs_eq xs ys h)

theorem jvBeqList_eq : ∀ xs ys : List JValue, jvBeqList xs ys = true → xs = ys
  | [], [], _ => rfl
  | x :: xs, y :: ys, h => by
    simp only [jvBeqList, Bool.and_eq_true] at h
    exact congrArg₂ List.cons (jvBeq_eq x y h.1) (jvBeqList_eq xs ys h.2)

theorem jvBeqPairs_eq :
    ∀ xs ys : List (String × JValue), jvBeqPairs xs ys = true → xs = ys
  | [], [], _ => rfl
  | (k, v) :: xs, (l, w) :: ys, h => by
    simp only [jvBeqPairs, Bool.and_eq_true, beq_iff_eq] at h
    have h1 : (k, v) = (l, w) :=
      congrArg₂ Prod.mk h.1.1 (jvBeq_eq v w h.1.2)
    exact congrArg₂ List.cons h1 (jvBeqPairs_eq xs ys h.2)

end

mutual

theorem jvBeq_refl : ∀ a : JValue, jvBeq a a = true
  | .null => rfl
  | .bool a => by simp [jvBeq]
  | .num a => by simp [jvBeq]
  | .str a => by simp [jvBeq]
  | .arr xs => jvBeqList_refl xs
  | .obj xs => jvBeqPairs_refl xs

theorem jvBeqList_refl : ∀ xs : List JValue, jvBeqList xs xs = true
  | [] => rfl
  | x :: xs => by
    simp only [jvBeqList, Bool.and_eq_true]
    exact ⟨jvBeq_refl x, jvBeqList_refl xs⟩

theorem jvBeqPairs_refl : ∀ xs : List (String × JValue), jvBeqPairs xs xs = true
  | [] => rfl
  | (k, v) :: xs => by
    simp only [jvBeqPairs, Bool.and_eq_true, beq_iff_eq]
    exact ⟨⟨trivial, jvBeq_refl v⟩, jvBeqPairs_refl xs⟩

end

instance : DecidableEq JValue := fun a b =>
  if h : jvBeq a b = true then .isTrue (jvBeq_eq a b h)
  else .isFalse (fun he => h (he ▸ jvBeq_refl a))

namespace JValue

/-- Whether a value is a JSON number. -/
def isNum : JValue → Bool
  | .num _ => true
  | _ => false

/-- Whether a value is a JSON string. -/
def isStr : JValue → Bool
  | .str _ => true
  | _ => false

/-- Numeric payload (only used on values known to be numbers). -/
def asNum : JValue → Int
  | .num n => n
  | _ => 0

/-- String payload (only used on values known to be strings). -/
def asStr : JValue → String
  | .str s => s
  | _ => ""

end JValue

/-- Lexicographic code-point comparison of char lists; `charsLe a b` matches
Python string comparison `a <= b` (Python compares strings by Unicode code
points, left to right). -/
def charsLe : List Char → List Char → Bool
  | [], _ => true
  | _ :: _, [] => false
  | a :: as, b :: bs =>
    if a < b then true else if b < a then false else charsLe as bs

/-- Python string `<=`, used by `sorted` on string lists and by
`json.dumps(..., sort_keys=True)` for key ordering. -/
def strLe (a b : String) : Bool := charsLe a.data b.data

theorem charsLe_cons_of_lt {a b : Char} (as bs : List Char) (h : a < b) :
    charsLe (a :: as) (b :: bs) = true := by
  simp [charsLe, if_pos h]

theorem charsLe_cons_of_gt {a b : Char} (as bs : List Char) (h : b < a) :
    charsLe (a :: as) (b :: bs) = false := by
  simp [charsLe, if_neg (asymm h : ¬ a < b), if_pos h]

theorem charsLe_cons_self (a : Char) (as bs : List Char) :
    charsLe (a :: as) (a :: bs) = charsLe as bs := by
  simp [charsLe, if_neg (lt_irrefl a)]

theorem charsLe_total : ∀ as bs : List Char, charsLe as bs = true ∨ charsLe bs as = true
  | [], _ => Or.inl rfl
  | _ :: _, [] => Or.inr rfl
  | a :: as, b :: bs => by
    rcases lt_trichotomy a b with h | h | h
    · exact Or.inl (charsLe_cons_of_lt as bs h)
    · subst h
      rcases charsLe_total as bs with h2 | h2
      · exact Or.inl (by rw [charsLe_cons_self]; exact h2)
      · exact Or.inr (by rw [charsLe_cons_self]; exact h2)
    · exact Or.inr (charsLe_cons_of_lt bs as h)

theorem charsLe_trans :
    ∀ as bs cs : List Char,
      charsLe as bs = true → charsLe bs cs = true → charsLe as cs = true
  | [], _, _, _, _ => rfl
  | _ :: _, [], _, h1, _ => by simp [charsLe] at h1
  | _ :: _, _ :: _, [], _, h2 => by simp [charsLe] at h2
  | a :: as, b :: bs, c :: cs, h1, h2 => by
    rcases lt_trichotomy a b with hab | hab | hab
    · rcases lt_trichotomy b c with hbc | hbc | hbc
      · exact charsLe_cons_of_lt as cs (hab.trans hbc)
      · subst hbc; exact charsLe_cons_of_lt as cs hab
      · rw [charsLe_cons_of_gt bs cs hbc] at h2; cases h2
    · subst hab
      rcases lt_trichotomy a c with hac | hac | hac
      · exact charsLe_cons_of_lt as cs hac
      · subst hac
        rw [charsLe_cons_self] at h1 h2 ⊢
        exact charsLe_trans as bs cs h1 h2
      · rw [charsLe_cons_of_gt bs cs hac] at h2; cases h2
    · rw [charsLe_cons_of_gt as bs hab] at h1; cases h1

theorem charsLe_antisymm :
    ∀ as bs : List Char, charsLe as bs = true → charsLe bs as = true → as = bs
  | [], [], _, _ => rfl
  | [], _ :: _, _, h2 => by simp [charsLe] at h2
  | _ :: _, [], h1, _ => by simp [charsLe] at h1
  | a :: as, b :: bs, h1, h2 => by
    rcases lt_trichotomy a b with hab | hab | hab
    · rw [charsLe_cons_of_gt bs as hab] at h2; cases h2
    · subst hab
      rw [charsLe_cons_self] at h1 h2
      exact congrArg₂ List.cons rfl (charsLe_antisymm as bs h1 h2)
    · rw [charsLe_cons_of_gt as bs hab] at h1; cases h1

theorem strLe_total (a b : String) : strLe a b = true ∨ strLe b a = true :=
  charsLe_total a.data b.data

theorem strLe_trans {a b c : String} (h1 : strLe a b = true) (h2 : strLe b c = true) :
    strLe a c = true :=
  charsLe_trans a.data b.data c.data h1 h2

theorem strLe_antisymm {a b : String} (h1 : strLe a b = true) (h2 : strLe b a = true) :
    a = b :=
  String.ext (charsLe_antisymm a.data b.data h1 h2)

/-- Python string `<=` as a decidable proposition on strings. -/
def sLe (a b : String) : Prop := strLe a b = true

instance : DecidableRel sLe := fun a b => Bool.decEq (strLe a b) true

instance : IsTotal String sLe := ⟨strLe_total⟩

instance : IsTrans String sLe := ⟨fun _ _ _ => strLe_trans⟩

instance : IsAntisymm String sLe := ⟨fun _ _ => strLe_antisymm⟩

/-- Embedding of Python `sorted` as applied by
`DocumentCache._normalize_options` to a list-valued option
(`src/docsray/utils/cache.py` line 103).  Python `sorted` succeeds exactly
when the elements are mutually comparable; the lists the repository sorts
are homogeneous int or string lists, which are sorted by the value order.
On a list that is neither (where CPython would raise `TypeError`) the
embedding returns the list unchanged; no theorem below relies on that
branch. -/
def pySorted (xs : List JValue) : List JValue :=
  if xs.all JValue.isNum = true then
    ((xs.map JValue.asNum).insertionSort (· ≤ ·)).map JValue.num
  else if xs.all JValue.isStr = true then
    ((xs.map JValue.asStr).insertionSort sLe).map JValue.str
  else
    xs

/-- The non-deterministic option keys stripped by
`DocumentCache._normalize_options` (`src/docsray/utils/cache.py`
lines 96-98). -/
def nonDeterministicKeys : List String := ["timestamp", "request_id", "session_id"]

/-- The transformation `_normalize_options` applies to each surviving
option value (`src/docsray/utils/cache.py` lines 101-103): top-level list
values are sorted, everything else is left alone. -/
def sortListValue : JValue → JValue
  | .arr xs => .arr (pySorted xs)
  | v => v

/-- Embedding of `DocumentCache._normalize_options`
(`src/docsray/utils/cache.py` lines 93-105): drop the three
non-deterministic keys from the option dict (whose insertion order the
association list preserves), then sort every top-level list-valued
option. -/
def normalizeOptions : List (String × JValue) → List (String × JValue)
  | [] => []
  | (k, v) :: rest =>
    if nonDeterministicKeys.contains k then normalizeOptions rest
    else (k, sortListValue v) :: normalizeOptions rest

/-- Key order on dict entries used by `json.dumps(..., sort_keys=True)`. -/
def keyLe (a b : String × JValue) : Prop := strLe a.1 b.1 = true

instance : DecidableRel keyLe := fun a b => Bool.decEq (strLe a.1 b.1) true

instance : IsTotal (String × JValue) keyLe := ⟨fun a b => strLe_total a.1 b.1⟩

instance : IsTrans (String × JValue) keyLe := ⟨fun _ _ _ => strLe_trans⟩

/-- Strict key order; antisymmetric even on entries, which `keyLe` is not
(two entries can share a key).  Used to conclude that two sorted
permutations of a dict with distinct keys are equal. -/
def keyLt (a b : String × JValue) : Prop := keyLe a b ∧ a.1 ≠ b.1

instance : IsAntisymm (String × JValue) keyLt :=
  ⟨fun _ _ h1 h2 => (h1.2 (strLe_antisymm h1.1 h2.1)).elim⟩

mutual

/-- Canonical form of a `JValue` under `json.dumps(..., sort_keys=True)`
(`src/docsray/utils/cache.py` line 51): every object's key/value list is
put into sorted key order, recursively.  Two values with the same
canonical form serialize to the same string (and hence hash to the same
SHA-256 key); two values with different canonical forms serialize to
different strings, since the sorted JSON dump of distinct canonical values
is injective. -/
def canon : JValue → JValue
  | .null => .null
  | .bool b => .bool b
  | .num n => .num n
  | .str s => .str s
  | .arr xs => .arr (canonList xs)
  | .obj kvs => .obj ((canonPairs kvs).insertionSort keyLe)

/-- `canon` mapped over an array's elements. -/
def canonList : List JValue → List JValue
  | [] => []
  | x :: xs => canon x :: canonList xs

/-- `canon` mapped over an object's values. -/
def canonPairs : List (String × JValue) → List (String × JValue)
  | [] => []
  | (k, v) :: kvs => (k, canon v) :: canonPairs kvs

end

/-- Embedding of `DocumentCache.generate_key` (`src/docsray/utils/cache.py`
lines 43-52).  The source serializes `{url, operation, options:
normalized}` with `json.dumps(..., sort_keys=True)` and returns the hex
SHA-256 of the result.  The composition hexdigest-of-sha256-of-utf8-of-dump
is abstracted by the parameter `h`, applied to the canonical (recursively
key-sorted) form of the request object: the sorted dump depends on its
argument exactly through that canonical form, and is injective on
canonical forms, so `h` stands for an arbitrary function (injective when
SHA-256 is assumed collision-free for the inputs at hand).  `α` stands for
the hex-digest string type. -/
def generate_key {α : Type} (h : JValue → α) (document_url operation : String)
    (options : List (String × JValue)) : α :=
  h (canon (.obj [("url", .str document_url), ("operation", .str operation),
    ("options", .obj (normalizeOptions options))]))

theorem perm_all_eq {α : Type} {xs ys : List α} (hp : xs.Perm ys) (p : α → Bool) :
    xs.all p = ys.all p := by
  induction hp with
  | nil => rfl
  | cons x h ih => simp [List.all_cons, ih]
  | swap x y l => simp [List.all_cons, Bool.and_left_comm]
  | trans h1 h2 ih1 ih2 => exact ih1.trans ih2

theorem pySorted_perm_eq {xs ys : List JValue} (hp : xs.Perm ys)
    (hs : xs.all JValue.isNum = true ∨ xs.all JValue.isStr = true) :
    pySorted xs = pySorted ys := by
  by_cases hn : xs.all JValue.isNum = true
  · have hn' : ys.all JValue.isNum = true := (perm_all_eq hp _).symm.trans hn
    rw [pySorted, pySorted, if_pos hn, if_pos hn']
    refine congrArg (List.map JValue.num) (List.eq_of_perm_of_sorted
      (r := ((· ≤ ·) : Int → Int → Prop)) ?_ ?_ ?_)
    · exact (List.perm_insertionSort _ _).trans
        ((hp.map JValue.asNum).trans (List.perm_insertionSort _ _).symm)
    · exact List.sorted_insertionSort _ _
    · exact List.sorted_insertionSort _ _
  · have hs : xs.all JValue.isStr = true := hs.resolve_left hn
    have hn0 : xs.all JValue.isNum = false := Bool.eq_false_iff.mpr hn
    have hn0' : ys.all JValue.isNum = false := (perm_all_eq hp _).symm.trans hn0
    have hs' : ys.all JValue.isStr = true := (perm_all_eq hp _).symm.trans hs
    rw [pySorted, pySorted]
    rw [if_neg (show ¬ (xs.all JValue.isNum = true) by simp [hn0]),
      if_neg (show ¬ (ys.all JValue.isNum = true) by simp [hn0']),
      if_pos hs, if_pos hs']
    refine congrArg (List.map JValue.str) (List.eq_of_perm_of_sorted (r := sLe) ?_ ?_ ?_)
    · exact (List.perm_insertionSort _ _).trans
        ((hp.map JValue.asStr).trans (List.perm_insertionSort _ _).symm)
    · exact List.sorted_insertionSort _ _
    · exact List.sorted_insertionSort _ _

/-- Two option values that `_normalize_options` sends to the same normalized
value: equal outright, or list values holding the same homogeneous
(sortable) elements in a possibly different order. -/
def ValueEquiv (v w : JValue) : Prop :=
  v = w ∨ ∃ xs ys, v = .arr xs ∧ w = .arr ys ∧ xs.Perm ys ∧
    (xs.all JValue.isNum = true ∨ xs.all JValue.isStr = true)

theorem sortListValue_eq_of_equiv {v w : JValue} (h : ValueEquiv v w) :
    sortListValue v = sortListValue w := by
  rcases h with rfl | ⟨xs, ys, rfl, rfl, hp, hs⟩
  · rfl
  · exact congrArg JValue.arr (pySorted_perm_eq hp hs)

/-- Two option dicts describing the same logical request: the same keys,
in a possibly different order, bound to `ValueEquiv`-related values. -/
def OptionsEquiv (o o' : List (String × JValue)) : Prop :=
  ∃ m, List.Forall₂ (fun a b => a.1 = b.1 ∧ ValueEquiv a.2 b.2) o m ∧ m.Perm o'

theorem normalizeOptions_eq_of_forall₂ {o m : List (String × JValue)}
    (h : List.Forall₂ (fun a b => a.1 = b.1 ∧ ValueEquiv a.2 b.2) o m) :
    normalizeOptions o = normalizeOptions m := by
  induction h with
  | nil => rfl
  | cons hab hrest ih =>
    rename_i a b l₁ l₂
    obtain ⟨k, v⟩ := a
    obtain ⟨l, w⟩ := b
    obtain ⟨hk, hv⟩ := hab
    cases hk
    simp only [normalizeOptions]
    cases hc : nonDeterministicKeys.contains k
    · simp only [Bool.false_eq_true, if_neg, ih, sortListValue_eq_of_equiv hv,
        reduceIte]
    · simp only [if_pos, ih, reduceIte]

theorem normalizeOptions_eq (l : List (String × JValue)) :
    normalizeOptions l =
      (l.filter (fun kv => !(nonDeterministicKeys.contains kv.1))).map
        (fun kv => (kv.1, sortListValue kv.2)) := by
  induction l with
  | nil => rfl
  | cons a rest ih =>
    obtain ⟨k, v⟩ := a
    simp only [normalizeOptions, List.filter_cons]
    cases hc : nonDeterministicKeys.contains k
    · simp [hc, ih]
    · simp [hc, ih]

theorem normalizeOptions_perm {l₁ l₂ : List (String × JValue)} (hp : l₁.Perm l₂) :
    (normalizeOptions l₁).Perm (normalizeOptions l₂) := by
  rw [normalizeOptions_eq, normalizeOptions_eq]
  exact (hp.filter _).map _

theorem normalizeOptions_keys_sublist (l : List (String × JValue)) :
    ((normalizeOptions l).map Prod.fst).Sublist (l.map Prod.fst) := by
  induction l with
  | nil => exact List.Sublist.refl []
  | cons a rest ih =>
    obtain ⟨k, v⟩ := a
    simp only [normalizeOptions]
    cases hc : nonDeterministicKeys.contains k
    · simpa using ih.cons₂ k
    · simpa using ih.cons k

theorem canonPairs_eq_map (l : List (String × JValue)) :
    canonPairs l = l.map (fun kv => (kv.1, canon kv.2)) := by
  induction l with
  | nil => rfl
  | cons a rest ih =>
    obtain ⟨k, v⟩ := a
    simp [canonPairs, ih]

theorem canonPairs_keys (l : List (String × JValue)) :
    (canonPairs l).map Prod.fst = l.map Prod.fst := by
  rw [canonPairs_eq_map, List.map_map]
  rfl

theorem sorted_keyLt_of_sorted_keyLe {l : List (String × JValue)}
    (hs : l.Sorted keyLe) (hnd : (l.map Prod.fst).Nodup) : l.Sorted keyLt := by
  have hne : l.Pairwise (fun a b => a.1 ≠ b.1) := List.pairwise_map.mp hnd
  exact (hs.and hne).imp (fun h => ⟨h.1, h.2⟩)

theorem insertionSort_keyLe_eq {l₁ l₂ : List (String × JValue)} (hp : l₁.Perm l₂)
    (hnd : (l₁.map Prod.fst).Nodup) :
    l₁.insertionSort keyLe = l₂.insertionSort keyLe := by
  have h1 : (l₁.insertionSort keyLe).Perm l₁ := List.perm_insertionSort keyLe l₁
  have h2 : (l₂.insertionSort keyLe).Perm l₂ := List.perm_insertionSort keyLe l₂
  have hp' : (l₁.insertionSort keyLe).Perm (l₂.insertionSort keyLe) :=
    (h1.trans hp).trans h2.symm
  have hnd1 : ((l₁.insertionSort keyLe).map Prod.fst).Nodup :=
    ((h1.map Prod.fst).nodup_iff).mpr hnd
  have hnd2 : ((l₂.insertionSort keyLe).map Prod.fst).Nodup :=
    ((hp'.map Prod.fst).nodup_iff).mp hnd1
  exact List.eq_of_perm_of_sorted hp'
    (sorted_keyLt_of_sorted_keyLe (List.sorted_insertionSort keyLe l₁) hnd1)
    (sorted_keyLt_of_sorted_keyLe (List.sorted_insertionSort keyLe l₂) hnd2)

theorem canon_obj_eq_of_equiv {o o' : List (String × JValue)}
    (h : OptionsEquiv o o') (hnd : (o.map Prod.fst).Nodup) :
    canon (.obj (normalizeOptions o)) = canon (.obj (normalizeOptions o')) := by
  obtain ⟨m, hf, hpm⟩ := h
  have he : normalizeOptions o = normalizeOptions m := normalizeOptions_eq_of_forall₂ hf
  have hperm : (normalizeOptions o).Perm (normalizeOptions o') :=
    he ▸ normalizeOptions_perm hpm
  have hpc : (canonPairs (normalizeOptions o)).Perm (canonPairs (normalizeOptions o')) := by
    rw [canonPairs_eq_map, canonPairs_eq_map]
    exact hperm.map _
  have hndo : ((canonPairs (normalizeOptions o)).map Prod.fst).Nodup := by
    rw [canonPairs_keys]
    exact List.Nodup.sublist (normalizeOptions_keys_sublist o) hnd
  simp only [canon]
  exact congrArg JValue.obj (insertionSort_keyLe_eq hpc hndo)

theorem generate_key_eq_obj {α : Type} (h : JValue → α) (url op : String)
    (o : List (String × JValue)) :
    generate_key h url op o =
      h (.obj [("operation", .str op),
        ("options", canon (.obj (normalizeOptions o))),
        ("url", .str url)]) := rfl

/-- C1: `DocumentCache.generate_key` is insensitive to option-map key order
and to element order inside homogeneous list-valued options (after the
non-deterministic keys `timestamp`, `request_id`, `session_id` are
stripped), and produces distinct keys whenever the url, the operation, or
the normalized options differ — the latter under the explicit assumption
that the digest function is injective (SHA-256 collision-freeness), and
reading a difference in "any remaining option value" as a difference that
survives normalization (stripping plus list sorting), without which the
two halves of the claim would contradict each other. -/
theorem generate_key_deterministic_and_distinct {α : Type} (h : JValue → α)
    (hinj : Function.Injective h) (url op url' op' : String)
    (o o' : List (String × JValue)) (hnd : (o.map Prod.fst).Nodup) :
    (OptionsEquiv o o' → generate_key h url op o = generate_key h url op o') ∧
    ((url ≠ url' ∨ op ≠ op' ∨
        canon (.obj (normalizeOptions o)) ≠ canon (.obj (normalizeOptions o'))) →
      generate_key h url op o ≠ generate_key h url' op' o') := by
  constructor
  · intro heq
    rw [generate_key_eq_obj, generate_key_eq_obj, canon_obj_eq_of_equiv heq hnd]
  · intro hdiff hcontra
    rw [generate_key_eq_obj, generate_key_eq_obj] at hcontra
    have hobj := hinj hcontra
    simp only [JValue.obj.injEq, List.cons.injEq, Prod.mk.injEq, JValue.str.injEq,
      and_true, true_and] at hobj
    rcases hdiff with hd | hd | hd
    · exact hd hobj.2.2
    · exact hd hobj.1
    · exact hd hobj.2.1

/-- Witness for C1 at the spec's own example: options `{a: 1, b: [2, 1]}`
versus `{b: [1, 2], a: 1}`, with the identity digest. -/
theorem generate_key_deterministic_and_distinct_witness :
    (Function.Injective (id : JValue → JValue) ∧
      (([("a", JValue.num 1), ("b", JValue.arr [JValue.num 2, JValue.num 1])].map
          Prod.fst).Nodup)) ∧
    ((OptionsEquiv [("a", JValue.num 1), ("b", JValue.arr [JValue.num 2, JValue.num 1])]
          [("b", JValue.arr [JValue.num 1, JValue.num 2]), ("a", JValue.num 1)] →
        generate_key id "u" "extract"
            [("a", JValue.num 1), ("b", JValue.arr [JValue.num 2, JValue.num 1])] =
          generate_key id "u" "extract"
            [("b", JValue.arr [JValue.num 1, JValue.num 2]), ("a", JValue.num 1)]) ∧
      ((("u" : String) ≠ "u" ∨ ("extract" : String) ≠ "extract" ∨
          canon (.obj (normalizeOptions
            [("a", JValue.num 1), ("b", JValue.arr [JValue.num 2, JValue.num 1])])) ≠
            canon (.obj (normalizeOptions
              [("b", JValue.arr [JValue.num 1, JValue.num 2]), ("a", JValue.num 1)]))) →
        generate_key id "u" "extract"
            [("a", JValue.num 1), ("b", JValue.arr [JValue.num 2, JValue.num 1])] ≠
          generate_key id "u" "extract"
            [("b", JValue.arr [JValue.num 1, JValue.num 2]), ("a", JValue.num 1)])) :=
  ⟨⟨Function.injective_id, by decide⟩,
    generate_key_deterministic_and_distinct id Function.injective_id "u" "extract"
      "u" "extract"
      [("a", JValue.num 1), ("b", JValue.arr [JValue.num 2, JValue.num 1])]
      [("b", JValue.arr [JValue.num 1, JValue.num 2]), ("a", JValue.num 1)]
      (by decide)⟩

/-! ### Provider capabilities and scoring (`src/docsray/providers/registry.py`) -/

/-- Static capability declaration returned by `get_capabilities`
(`src/docsray/providers/base.py` lines 28-33): supported formats, boolean
feature flags, numeric performance figures.  Python dicts become
association lists; float figures become rationals (every constant in the
scoring formula is exactly representable, and the one division is by
100). -/
structure ProviderCapabilities where
  formats : List String
  features : List (String × Bool)
  performance : List (String × ℚ)
deriving DecidableEq

/-- Dict lookup: the first binding of a key, if any. -/
def alistGet? {β : Type} (l : List (String × β)) (k : String) : Option β :=
  (l.find? (fun kv => kv.1 == k)).map Prod.snd

/-- `caps.features.get(name, False)` (`src/docsray/providers/registry.py`
lines 157-165). -/
def featureFlag (caps : ProviderCapabilities) (name : String) : Bool :=
  (alistGet? caps.features name).getD false

/-- `caps.performance.get("averageSpeed", 0)`
(`src/docsray/providers/registry.py` line 170). -/
def perfGet (caps : ProviderCapabilities) (name : String) : ℚ :=
  (alistGet? caps.performance name).getD 0

/-- Document record (`src/docsray/providers/base.py` lines 11-25), reduced
to the fields the registry's scoring and selection consult (`url`, `path`,
`hash` and `metadata` play no role there). -/
structure Document where
  format : Option String
  size : Option Nat
  has_scanned_content : Bool
deriving DecidableEq

/-- Python `str.lower()` character by character (the strings the
repository lowercases — format tags and file suffixes — are ASCII, where
this agrees with Python). -/
def pyLower (s : String) : String :=
  ⟨s.data.map Char.toLower⟩

/-- The format-compatibility test of `_score_provider`
(`src/docsray/providers/registry.py` line 152):
`document.format and document.format.lower() in caps.formats`.
Python truthiness makes `None` and the empty string fail the first
conjunct. -/
def formatOk (caps : ProviderCapabilities) (doc : Document) : Bool :=
  match doc.format with
  | none => false
  | some f => (f != "") && caps.formats.contains (pyLower f)

/-- The large-file test of `_score_provider`
(`src/docsray/providers/registry.py` line 169):
`document.size and document.size > 10 * 1024 * 1024` (a `None` or zero
size is falsy; zero fails the comparison anyway). -/
def sizeBig (doc : Document) : Bool :=
  match doc.size with
  | none => false
  | some s => decide (s > 10 * 1024 * 1024)

/-- Embedding of `ProviderRegistry._score_provider`
(`src/docsray/providers/registry.py` lines 132-173), mirroring the
source's sequential accumulation into `score`. -/
def scoreProvider (caps : ProviderCapabilities) (document : Document)
    (operation : String) : ℚ :=
  let score : ℚ := 0
  let score := if formatOk caps document then score + 10 else score
  let score :=
    if operation = "xray" then
      if featureFlag caps "customInstructions" then score + 5 else score
    else if operation = "extract" then
      let score :=
        if document.has_scanned_content && featureFlag caps "ocr" then score + 8 else score
      if featureFlag caps "tables" then score + 2 else score
    else if operation = "map" then
      if featureFlag caps "streaming" then score + 3 else score
    else score
  if sizeBig document then score + min (perfGet caps "averageSpeed" / 100) 5 else score

/-! ### Generic Result Cache state (`src/docsray/utils/cache.py`) -/

/-- Entry in the Generic Result Cache (`src/docsray/utils/cache.py`
lines 13-21).  `time.time()` instants are embedded as integers passed
explicitly to each operation; the source only ever subtracts and compares
them. -/
structure CacheEntry where
  key : String
  value : JValue
  metadata : List (String × JValue)
  timestamp : Int
  access_count : Nat
deriving DecidableEq

/-- `CacheEntry.is_expired` (`src/docsray/utils/cache.py` lines 23-25). -/
def CacheEntry.is_expired (e : CacheEntry) (ttl : Int) (now : Int) : Bool :=
  decide (now - e.timestamp > ttl)

/-- State of `DocumentCache` (`src/docsray/utils/cache.py` lines 33-41):
the underlying dict as an association list in insertion order. -/
structure DocumentCache where
  enabled : Bool
  ttl : Int
  max_size : Nat
  cache : List (String × CacheEntry)
deriving DecidableEq

/-- Python dict lookup `d.get(k)`: first binding of the key. -/
def dictGet? : List (String × CacheEntry) → String → Option CacheEntry
  | [], _ => none
  | (k0, e) :: rest, k => if k0 = k then some e else dictGet? rest k

/-- Python `k in d`. -/
def dictHas : List (String × CacheEntry) → String → Bool
  | [], _ => false
  | (k0, _) :: rest, k => if k0 = k then true else dictHas rest k

/-- Python dict assignment `d[k] = v`: an existing key keeps its original
position and gets the new value; a new key is appended. -/
def dictSet (l : List (String × CacheEntry)) (k : String) (e : CacheEntry) :
    List (String × CacheEntry) :=
  if dictHas l k then l.map (fun kv => if kv.1 = k then (k, e) else kv)
  else l ++ [(k, e)]

/-- Python `del d[k]`: removes the binding of `k` (dict keys are unique). -/
def dictDel : List (String × CacheEntry) → String → List (String × CacheEntry)
  | [], _ => []
  | (k0, e) :: rest, k => if k0 = k then rest else (k0, e) :: dictDel rest k

/-- Fold of Python `min(keys, key=timestamp)`: carries the best key and its
timestamp; a strictly smaller timestamp replaces the best, so ties keep the
earliest (insertion-order first) key, exactly as `min` does. -/
def oldestKeyGo : List (String × CacheEntry) → String × Int → String × Int
  | [], b => b
  | (k, e) :: rest, b =>
    if e.timestamp < b.2 then oldestKeyGo rest (k, e.timestamp)
    else oldestKeyGo rest b

/-- `min(self._cache.keys(), key=lambda k: self._cache[k].timestamp)`
(`src/docsray/utils/cache.py` lines 78-81); `none` embeds the `ValueError`
that `min` raises on an empty dict. -/
def oldestKey : List (String × CacheEntry) → Option String
  | [] => none
  | (k, e) :: rest => some (oldestKeyGo rest (k, e.timestamp)).1

/-- Embedding of `DocumentCache.get` (`src/docsray/utils/cache.py`
lines 54-68): no-op when disabled; on an unexpired hit returns the value
and bumps the entry's access counter (`entry.access()`), leaving the
timestamp alone; deletes an expired entry; otherwise a miss. -/
def DocumentCache.get (c : DocumentCache) (key : String) (now : Int) :
    Option JValue × DocumentCache :=
  if c.enabled = false then (none, c)
  else
    match dictGet? c.cache key with
    | some e =>
      if e.is_expired c.ttl now = false then
        (some e.value,
          { c with cache := dictSet c.cache key { e with access_count := e.access_count + 1 } })
      else (none, { c with cache := dictDel c.cache key })
    | none => (none, c)

/-- Embedding of `DocumentCache.set` (`src/docsray/utils/cache.py`
lines 70-85): no-op when disabled; when the dict already holds at least
`max_size` entries, the key with the oldest timestamp is deleted before
the assignment.  `min` over an empty dict raises `ValueError` (reachable
only with `max_size = 0`), aborting the call before any mutation —
embedded as returning the state unchanged. -/
def DocumentCache.set (c : DocumentCache) (key : String) (value : JValue)
    (metadata : List (String × JValue)) (now : Int) : DocumentCache :=
  if c.enabled = false then c
  else if c.cache.length ≥ c.max_size then
    match oldestKey c.cache with
    | none => c
    | some k0 =>
      { c with cache := dictSet (dictDel c.cache k0) key ⟨key, value, metadata, now, 0⟩ }
  else { c with cache := dictSet c.cache key ⟨key, value, metadata, now, 0⟩ }

/-- Embedding of `DocumentCache.clear` (`src/docsray/utils/cache.py`
lines 87-91). -/
def DocumentCache.clear (c : DocumentCache) : DocumentCache :=
  { c with cache := [] }

/-- One recorded call against the cache, with its `time.time()` instant. -/
inductive CacheOp where
  | set (key : String) (value : JValue) (metadata : List (String × JValue)) (now : Int)
  | get (key : String) (now : Int)
  | clear

/-- Apply one call to the cache state. -/
def cacheStep (c : DocumentCache) : CacheOp → DocumentCache
  | .set k v md now => c.set k v md now
  | .get k now => (c.get k now).2
  | .clear => c.clear

/-- Apply a sequence of calls to the cache state. -/
def runOps (c : DocumentCache) : List CacheOp → DocumentCache
  | [] => c
  | op :: ops => runOps (cacheStep c op) ops

/-- C2: `_score_provider` returns exactly the sum of the spec's components
— 10.0 for format compatibility, 5.0 for `customInstructions` under
`xray`, 8.0 for `ocr` on scanned content and 2.0 for `tables` under
`extract`, 3.0 for `streaming` under `map`, plus
`min(averageSpeed / 100, 5.0)` for documents over 10 MiB — and the spec's
concrete scenario (50 MB un-scanned PDF, `extract`, provider declaring
`pdf` and `tables` with `averageSpeed = 50`) scores exactly 12.5. -/
theorem score_provider_formula (caps : ProviderCapabilities) (document : Document)
    (operation : String) :
    (scoreProvider caps document operation =
        (if formatOk caps document = true then (10 : ℚ) else 0) +
        (if operation = "xray" ∧ featureFlag caps "customInstructions" = true
          then (5 : ℚ) else 0) +
        (if operation = "extract" ∧ document.has_scanned_content = true ∧
            featureFlag caps "ocr" = true then (8 : ℚ) else 0) +
        (if operation = "extract" ∧ featureFlag caps "tables" = true
          then (2 : ℚ) else 0) +
        (if operation = "map" ∧ featureFlag caps "streaming" = true
          then (3 : ℚ) else 0) +
        (if sizeBig document = true then min (perfGet caps "averageSpeed" / 100) 5
          else 0)) ∧
      scoreProvider
          ⟨["pdf"], [("tables", true)], [("averageSpeed", 50)]⟩
          ⟨some "pdf", some (50 * 1024 * 1024), false⟩ "extract" = 25 / 2 := by
  constructor
  · unfold scoreProvider
    split_ifs <;> simp_all [Bool.and_eq_true]
  · have t1 : (("tables" : String) == "customInstructions") = false := by decide
    have t2 : ¬ (("extract" : String) = "xray") := by decide
    have t3 : pyLower "pdf" = "pdf" := by decide
    have t4 : ¬ (("pdf" : String) = "") := by decide
    norm_num [scoreProvider, formatOk, featureFlag, perfGet, alistGet?, sizeBig,
      List.find?, min_def, t1, t2, t3, t4]

theorem oldestKeyGo_le :
    ∀ (l : List (String × CacheEntry)) (b : String × Int),
      (oldestKeyGo l b).2 ≤ b.2 ∧ ∀ p ∈ l, (oldestKeyGo l b).2 ≤ p.2.timestamp
  | [], b => ⟨le_refl _, by intro p hp; cases hp⟩
  | (k, e) :: rest, b => by
    simp only [oldestKeyGo]
    by_cases h : e.timestamp < b.2
    · rw [if_pos h]
      obtain ⟨h1, h2⟩ := oldestKeyGo_le rest (k, e.timestamp)
      refine ⟨h1.trans (le_of_lt h), ?_⟩
      intro p hp
      rcases List.mem_cons.mp hp with rfl | hp
      · exact h1
      · exact h2 p hp
    · rw [if_neg h]
      obtain ⟨h1, h2⟩ := oldestKeyGo_le rest b
      refine ⟨h1, ?_⟩
      intro p hp
      rcases List.mem_cons.mp hp with rfl | hp
      · exact h1.trans (not_lt.mp h)
      · exact h2 p hp

theorem oldestKeyGo_mem :
    ∀ (l : List (String × CacheEntry)) (b : String × Int),
      oldestKeyGo l b = b ∨
        ∃ e, ((oldestKeyGo l b).1, e) ∈ l ∧ e.timestamp = (oldestKeyGo l b).2
  | [], _ => Or.inl rfl
  | (k, e) :: rest, b => by
    simp only [oldestKeyGo]
    by_cases h : e.timestamp < b.2
    · rw [if_pos h]
      rcases oldestKeyGo_mem rest (k, e.timestamp) with heq | ⟨e', hm, ht⟩
      · refine Or.inr ⟨e, ?_, ?_⟩
        · rw [heq]; exact List.mem_cons_self _ _
        · rw [heq]
      · exact Or.inr ⟨e', List.mem_cons_of_mem _ hm, ht⟩
    · rw [if_neg h]
      rcases oldestKeyGo_mem rest b with heq | ⟨e', hm, ht⟩
      · exact Or.inl heq
      · exact Or.inr ⟨e', List.mem_cons_of_mem _ hm, ht⟩

/-- The key `DocumentCache.set` evicts really is one with a minimal
timestamp: `min(keys, key=timestamp)` returns a key present in the dict
whose entry's timestamp is a lower bound for every entry. -/
theorem oldestKey_spec {l : List (String × CacheEntry)} {k : String}
    (h : oldestKey l = some k) :
    ∃ e, (k, e) ∈ l ∧ ∀ p ∈ l, e.timestamp ≤ p.2.timestamp := by
  match l with
  | [] => cases h
  | (k0, e0) :: rest =>
    simp only [oldestKey, Option.some.injEq] at h
    obtain ⟨hle, hall⟩ := oldestKeyGo_le rest (k0, e0.timestamp)
    rcases oldestKeyGo_mem rest (k0, e0.timestamp) with heq | ⟨e', hm, ht⟩
    · have hk : k = k0 := by rw [← h, heq]

      have hgo2 : (oldestKeyGo rest (k0, e0.timestamp)).2 = e0.timestamp := by
        rw [heq]
      refine ⟨e0, ?_, ?_⟩
      · rw [hk]; exact List.mem_cons_self _ _
      · intro p hp
        rcases List.mem_cons.mp hp with rfl | hp
        · exact le_refl _
        · have := hall p hp
          rw [hgo2] at this
          exact this
    · refine ⟨e', ?_, ?_⟩
      · rw [← h]; exact List.mem_cons_of_mem _ hm
      · intro p hp
        rcases List.mem_cons.mp hp with rfl | hp
        · rw [ht]; exact hle
        · rw [ht]; exact hall p hp

theorem dictGet?_map_replace (k : String) (e : CacheEntry) :
    ∀ l : List (String × CacheEntry),
      dictGet? (l.map (fun kv => if kv.1 = k then (k, e) else kv)) k =
        if dictHas l k then some e else none
  | [] => rfl
  | (k0, e0) :: rest => by
    by_cases h : k0 = k
    · have hhead :
          ((fun kv : String × CacheEntry => if kv.1 = k then (k, e) else kv) (k0, e0)) =
            (k, e) := by simp [h]
      simp only [List.map_cons, hhead]
      simp [dictGet?, dictHas, h]
    · have hhead :
          ((fun kv : String × CacheEntry => if kv.1 = k then (k, e) else kv) (k0, e0)) =
            (k0, e0) := by simp [h]
      simp only [List.map_cons, hhead]
      simp only [dictGet?, dictHas, if_neg h]
      exact dictGet?_map_replace k e rest

theorem dictGet?_append_single_self (k : String) (e : CacheEntry) :
    ∀ l : List (String × CacheEntry),
      dictHas l k = false → dictGet? (l ++ [(k, e)]) k = some e
  | [], _ => by simp [dictGet?]
  | (k0, e0) :: rest, h => by
    simp only [dictHas] at h
    by_cases hk : k0 = k
    · rw [if_pos hk] at h; cases h
    · rw [if_neg hk] at h
      simp only [List.cons_append, dictGet?, if_neg hk]
      exact dictGet?_append_single_self k e rest h

theorem dictGet?_dictSet_self (l : List (String × CacheEntry)) (k : String)
    (e : CacheEntry) : dictGet? (dictSet l k e) k = some e := by
  unfold dictSet
  cases h : dictHas l k
  · rw [if_neg (by simp [h])]
    exact dictGet?_append_single_self k e l h
  · rw [if_pos (by simp [h]), dictGet?_map_replace, if_pos (by simp [h])]

theorem dictGet?_map_replace_ne {k k' : String} (hne : k' ≠ k) (e : CacheEntry) :
    ∀ l : List (String × CacheEntry),
      dictGet? (l.map (fun kv => if kv.1 = k then (k, e) else kv)) k' = dictGet? l k'
  | [] => rfl
  | (k0, e0) :: rest => by
    rw [List.map_cons]
    by_cases h0 : k0 = k
    · rw [show (if ((k0, e0) : String × CacheEntry).1 = k then (k, e) else (k0, e0)) =
          (k, e) from by simp [h0]]
      simp only [dictGet?]
      rw [if_neg (Ne.symm hne), if_neg (fun hc : k0 = k' => hne ((h0.symm.trans hc).symm))]
      exact dictGet?_map_replace_ne hne e rest
    · rw [show (if ((k0, e0) : String × CacheEntry).1 = k then (k, e) else (k0, e0)) =
          (k0, e0) from by simp [h0]]
      simp only [dictGet?]
      by_cases h1 : k0 = k'
      · rw [if_pos h1, if_pos h1]
      · rw [if_neg h1, if_neg h1]
        exact dictGet?_map_replace_ne hne e rest

theorem dictGet?_append_single_ne {k k' : String} (hne : k' ≠ k) (e : CacheEntry) :
    ∀ l : List (String × CacheEntry),
      dictGet? (l ++ [(k, e)]) k' = dictGet? l k'
  | [] => by simp [dictGet?, Ne.symm hne]
  | (k0, e0) :: rest => by
    simp only [List.cons_append, dictGet?]
    by_cases h1 : k0 = k'
    · rw [if_pos h1, if_pos h1]
    · rw [if_neg h1, if_neg h1]
      exact dictGet?_append_single_ne hne e rest

theorem dictGet?_dictSet_ne {k k' : String} (hne : k' ≠ k) (e : CacheEntry)
    (l : List (String × CacheEntry)) :
    dictGet? (dictSet l k e) k' = dictGet? l k' := by
  unfold dictSet
  split_ifs
  · exact dictGet?_map_replace_ne hne e l
  · exact dictGet?_append_single_ne hne e l

theorem dictGet?_dictDel_ne {k k' : String} (hne : k' ≠ k) :
    ∀ l : List (String × CacheEntry), dictGet? (dictDel l k) k' = dictGet? l k'
  | [] => rfl
  | (k0, e0) :: rest => by
    by_cases h0 : k0 = k
    · simp only [dictDel, dictGet?]
      rw [if_pos h0, if_neg (fun hc : k0 = k' => hne ((h0.symm.trans hc).symm))]
    · simp only [dictDel, dictGet?]
      rw [if_neg h0]
      simp only [dictGet?]
      by_cases h1 : k0 = k'
      · rw [if_pos h1, if_pos h1]
      · rw [if_neg h1, if_neg h1]
        exact dictGet?_dictDel_ne hne rest

theorem dictGet?_eq_none_of_not_mem_keys {k : String} :
    ∀ {l : List (String × CacheEntry)}, k ∉ l.map Prod.fst → dictGet? l k = none
  | [], _ => rfl
  | (k0, e0) :: rest, h => by
    simp only [List.map_cons, List.mem_cons, not_or] at h
    simp only [dictGet?]
    rw [if_neg (fun hc : k0 = k => h.1 hc.symm)]
    exact dictGet?_eq_none_of_not_mem_keys h.2

theorem dictGet?_dictDel_self {k : String} :
    ∀ {l : List (String × CacheEntry)}, (l.map Prod.fst).Nodup →
      dictGet? (dictDel l k) k = none
  | [], _ => rfl
  | (k0, e0) :: rest, hnd => by
    simp only [List.map_cons, List.nodup_cons] at hnd
    by_cases h0 : k0 = k
    · subst h0
      simp only [dictDel, if_pos rfl]
      exact dictGet?_eq_none_of_not_mem_keys hnd.1
    · simp only [dictDel, if_neg h0, dictGet?, if_neg h0]
      exact dictGet?_dictDel_self hnd.2

theorem dictHas_of_dictGet?_some {k : String} {e : CacheEntry} :
    ∀ {l : List (String × CacheEntry)}, dictGet? l k = some e → dictHas l k = true
  | [], h => by cases h
  | (k0, e0) :: rest, h => by
    by_cases h0 : k0 = k
    · simp [dictHas, h0]
    · simp only [dictGet?, if_neg h0] at h
      simp only [dictHas, if_neg h0]
      exact dictHas_of_dictGet?_some h

theorem dictSet_length_le (l : List (String × CacheEntry)) (k : String)
    (e : CacheEntry) : (dictSet l k e).length ≤ l.length + 1 := by
  unfold dictSet
  split_ifs
  · simp
  · simp

theorem dictSet_length_of_has {l : List (String × CacheEntry)} {k : String}
    (h : dictHas l k = true) (e : CacheEntry) :
    (dictSet l k e).length = l.length := by
  unfold dictSet
  rw [if_pos h]
  simp

theorem dictDel_length_le : ∀ (l : List (String × CacheEntry)) (k : String),
    (dictDel l k).length ≤ l.length
  | [], _ => le_refl _
  | (k0, e0) :: rest, k => by
    by_cases h0 : k0 = k
    · simp only [dictDel, if_pos h0, List.length_cons]
      omega
    · simp only [dictDel, if_neg h0, List.length_cons]
      have := dictDel_length_le rest k
      omega

theorem dictDel_length_of_mem {k : String} {e : CacheEntry} :
    ∀ {l : List (String × CacheEntry)}, (k, e) ∈ l →
      (dictDel l k).length = l.length - 1
  | [], h => by cases h
  | (k0, e0) :: rest, h => by
    by_cases h0 : k0 = k
    · simp only [dictDel, if_pos h0, List.length_cons]
      omega
    · have hm : (k, e) ∈ rest := by
        rcases List.mem_cons.mp h with heq | hm
        · cases heq; exact absurd rfl h0
        · exact hm
      have hpos : 0 < rest.length := List.length_pos.mpr (by
        intro hnil; rw [hnil] at hm; cases hm)
      have := dictDel_length_of_mem hm
      simp only [dictDel, if_neg h0, List.length_cons]
      omega

/-- C3: when `set` runs with the cache at (or above) capacity, the entry
deleted before insertion is exactly one whose creation timestamp is
minimal over the whole dict; `get` never changes a surviving entry's
timestamp or value (it only bumps the diagnostic access counter); and in
the spec's concrete scenario — `max_size = 2`, insert A then B, read A
three times, insert C — the key evicted is A, the oldest by creation,
despite its reads: creation-order FIFO, not LRU. -/
theorem cache_set_evicts_oldest_and_get_preserves_timestamps
    (c : DocumentCache) (key k' : String) (v : JValue)
    (md : List (String × JValue)) (now : Int) :
    (c.enabled = true → 1 ≤ c.max_size → c.max_size ≤ c.cache.length →
      ∃ k0 e, oldestKey c.cache = some k0 ∧ (k0, e) ∈ c.cache ∧
        (∀ p ∈ c.cache, e.timestamp ≤ p.2.timestamp) ∧
        (c.set key v md now).cache =
          dictSet (dictDel c.cache k0) key ⟨key, v, md, now, 0⟩) ∧
    ((c.cache.map Prod.fst).Nodup → ∀ e',
      dictGet? ((c.get key now).2).cache k' = some e' →
      ∃ e, dictGet? c.cache k' = some e ∧ e'.timestamp = e.timestamp ∧
        e'.value = e.value) ∧
    ((((((((DocumentCache.mk true 3600 2 []).set "A" (.str "va") [] 0).set "B"
          (.str "vb") [] 1).get "A" 2).2.get "A" 3).2.get "A" 4).2.set "C"
          (.str "vc") [] 5).cache.map Prod.fst = ["B", "C"]) := by
  refine ⟨?_, ?_, by decide⟩
  · intro hen hmax hcap
    have hne : c.cache ≠ [] := by
      intro hnil
      rw [hnil] at hcap
      simp at hcap
      omega
    obtain ⟨k0, hok⟩ : ∃ k0, oldestKey c.cache = some k0 := by
      cases hcc : c.cache with
      | nil => exact absurd hcc hne
      | cons a rest =>
        obtain ⟨ka, ea⟩ := a
        exact ⟨(oldestKeyGo rest (ka, ea.timestamp)).1, rfl⟩
    obtain ⟨e0, hm, hmin⟩ := oldestKey_spec hok
    refine ⟨k0, e0, hok, hm, hmin, ?_⟩
    unfold DocumentCache.set
    rw [if_neg (by simp [hen]), if_pos hcap, hok]
  · intro hnd e' h'
    by_cases hen : c.enabled = false
    · rw [show ((c.get key now).2).cache = c.cache from by
        simp only [DocumentCache.get, if_pos hen]] at h'
      exact ⟨e', h', rfl, rfl⟩
    · cases hf : dictGet? c.cache key with
      | none =>
        rw [show ((c.get key now).2).cache = c.cache from by
          simp only [DocumentCache.get, if_neg hen, hf]] at h'
        exact ⟨e', h', rfl, rfl⟩
      | some e0 =>
        by_cases hexp : e0.is_expired c.ttl now = false
        · rw [show ((c.get key now).2).cache =
              dictSet c.cache key { e0 with access_count := e0.access_count + 1 } from by
            simp only [DocumentCache.get, if_neg hen, hf, if_pos hexp]] at h'
          by_cases hk : k' = key
          · subst hk
            rw [dictGet?_dictSet_self] at h'
            injection h' with h'
            exact ⟨e0, hf, by rw [← h'], by rw [← h']⟩
          · rw [dictGet?_dictSet_ne hk] at h'
            exact ⟨e', h', rfl, rfl⟩
        · rw [show ((c.get key now).2).cache = dictDel c.cache key from by
            simp only [DocumentCache.get, if_neg hen, hf, if_neg hexp]] at h'
          by_cases hk : k' = key
          · subst hk
            rw [dictGet?_dictDel_self hnd] at h'
            cases h'
          · rw [dictGet?_dictDel_ne hk] at h'
            exact ⟨e', h', rfl, rfl⟩

/-- Witness for C3: a concrete at-capacity cache (two entries,
`max_size = 2`) on which the eviction clause produces the oldest entry,
and a concrete hit on which `get` preserves the stored timestamp. -/
theorem cache_set_evicts_oldest_witness :
    (∃ k0 e,
      oldestKey [("A", CacheEntry.mk "A" (.str "va") [] 0 0),
        ("B", CacheEntry.mk "B" (.str "vb") [] 1 0)] = some k0 ∧
      (k0, e) ∈ [("A", CacheEntry.mk "A" (.str "va") [] 0 0),
        ("B", CacheEntry.mk "B" (.str "vb") [] 1 0)] ∧
      (∀ p ∈ [("A", CacheEntry.mk "A" (.str "va") [] 0 0),
        ("B", CacheEntry.mk "B" (.str "vb") [] 1 0)], e.timestamp ≤ p.2.timestamp) ∧
      ((DocumentCache.mk true 3600 2
          [("A", CacheEntry.mk "A" (.str "va") [] 0 0),
            ("B", CacheEntry.mk "B" (.str "vb") [] 1 0)]).set "C" (.str "vc") [] 5).cache =
        dictSet
          (dictDel [("A", CacheEntry.mk "A" (.str "va") [] 0 0),
            ("B", CacheEntry.mk "B" (.str "vb") [] 1 0)] k0)
          "C" ⟨"C", .str "vc", [], 5, 0⟩) :=
  (cache_set_evicts_oldest_and_get_preserves_timestamps
      (DocumentCache.mk true 3600 2
        [("A", CacheEntry.mk "A" (.str "va") [] 0 0),
          ("B", CacheEntry.mk "B" (.str "vb") [] 1 0)])
      "C" "A" (.str "vc") [] 5).1 rfl (by decide) (by decide)

theorem cacheStep_max_size (c : DocumentCache) (op : CacheOp) :
    (cacheStep c op).max_size = c.max_size := by
  cases op with
  | set k v md now =>
    simp only [cacheStep]
    unfold DocumentCache.set
    split_ifs
    · rfl
    · cases oldestKey c.cache <;> rfl
    · rfl
  | get k now =>
    by_cases hen : c.enabled = false
    · simp only [cacheStep, DocumentCache.get, if_pos hen]
    · cases hf : dictGet? c.cache k with
      | none => simp only [cacheStep, DocumentCache.get, if_neg hen, hf]
      | some e =>
        by_cases hexp : e.is_expired c.ttl now = false
        · simp only [cacheStep, DocumentCache.get, if_neg hen, hf, if_pos hexp]
        · simp only [cacheStep, DocumentCache.get, if_neg hen, hf, if_neg hexp]
  | clear => rfl

theorem cacheStep_length (c : DocumentCache) (op : CacheOp)
    (hb : c.cache.length ≤ c.max_size) :
    (cacheStep c op).cache.length ≤ c.max_size := by
  cases op with
  | clear => simp [cacheStep, DocumentCache.clear]
  | get k now =>
    by_cases hen : c.enabled = false
    · simpa [cacheStep, DocumentCache.get, if_pos hen] using hb
    · cases hf : dictGet? c.cache k with
      | none => simpa [cacheStep, DocumentCache.get, if_neg hen, hf] using hb
      | some e =>
        by_cases hexp : e.is_expired c.ttl now = false
        · simp only [cacheStep, DocumentCache.get, if_neg hen, hf, if_pos hexp]
          rw [dictSet_length_of_has (dictHas_of_dictGet?_some hf)]
          exact hb
        · simp only [cacheStep, DocumentCache.get, if_neg hen, hf, if_neg hexp]
          exact (dictDel_length_le c.cache k).trans hb
  | set k v md now =>
    simp only [cacheStep]
    unfold DocumentCache.set
    split_ifs with h1 h2
    · exact hb
    · cases hok : oldestKey c.cache with
      | none => exact hb
      | some k0 =>
        obtain ⟨e0, hm, _⟩ := oldestKey_spec hok
        have hdel : (dictDel c.cache k0).length = c.cache.length - 1 :=
          dictDel_length_of_mem hm
        have hpos : 0 < c.cache.length := List.length_pos.mpr (by
          intro hnil; rw [hnil] at hm; cases hm)
        have hle := dictSet_length_le (dictDel c.cache k0) k ⟨k, v, md, now, 0⟩
        show (dictSet (dictDel c.cache k0) k ⟨k, v, md, now, 0⟩).length ≤ c.max_size
        omega
    · have hlt : c.cache.length < c.max_size := not_le.mp h2
      have hle := dictSet_length_le c.cache k ⟨k, v, md, now, 0⟩
      show (dictSet c.cache k ⟨k, v, md, now, 0⟩).length ≤ c.max_size
      omega

theorem runOps_length :
    ∀ (ops : List CacheOp) (c : DocumentCache),
      c.cache.length ≤ c.max_size → (runOps c ops).cache.length ≤ c.max_size
  | [], _, hb => hb
  | op :: ops, c, hb => by
    have hstep := cacheStep_length c op hb
    have hmax := cacheStep_max_size c op
    have := runOps_length ops (cacheStep c op) (by rw [hmax]; exact hstep)
    rw [hmax] at this
    exact this

/-- C10: starting from a fresh cache, no sequence of `get`/`set`/`clear`
calls ever leaves more than `max_size` entries; and a `set` issued at
capacity deletes the oldest entry even when the written key already
exists — concretely, overwriting B in a full two-entry cache {A, B}
evicts A, leaving only B. -/
theorem cache_never_exceeds_max_size (enabled : Bool) (ttl : Int)
    (max_size : Nat) (ops : List CacheOp) :
    (runOps (DocumentCache.mk enabled ttl max_size []) ops).cache.length ≤ max_size ∧
    ((DocumentCache.mk true 3600 2
        [("A", CacheEntry.mk "A" (.str "va") [] 0 0),
          ("B", CacheEntry.mk "B" (.str "vb") [] 1 0)]).set "B" (.str "vb2") [] 5).cache =
      [("B", CacheEntry.mk "B" (.str "vb2") [] 5 0)] :=
  ⟨runOps_length ops (DocumentCache.mk enabled ttl max_size []) (by simp),
    by decide⟩

/-! ### Provider registry selection (`src/docsray/providers/registry.py`) -/

/-- Generic dict lookup used by the registry and filesystem models. -/
def alistLookup {β : Type} : List (String × β) → String → Option β
  | [], _ => none
  | (k0, v) :: rest, k => if k0 = k then some v else alistLookup rest k

/-- A registered provider as the registry sees it: its `get_name()`, its
`can_process` test and its static capabilities.  The async `can_process`
is embedded as a pure predicate — the registry only awaits and branches on
its boolean result. -/
structure RProvider where
  name : String
  canProcess : Document → Bool
  caps : ProviderCapabilities

/-- Descending score order used to embed
`candidates.sort(key=lambda x: x[0], reverse=True)`
(`src/docsray/providers/registry.py` line 129). -/
def scoreGe (a b : ℚ × RProvider) : Prop := b.1 ≤ a.1

instance : DecidableRel scoreGe := fun a b => inferInstanceAs (Decidable (b.1 ≤ a.1))

/-- The user-preference branch of `select_provider`
(`src/docsray/providers/registry.py` lines 107-115):
`if user_preference and user_preference != "auto"` (truthiness: `None` and
`""` skip the branch), then `get_provider` and `can_process`; any failure
falls through to auto-selection. -/
def prefLookup (providers : List (String × RProvider)) (document : Document)
    (user_preference : Option String) : Option RProvider :=
  match user_preference with
  | some n =>
    if n ≠ "" ∧ n ≠ "auto" then
      match alistLookup providers n with
      | some p => if p.canProcess document then some p else none
      | none => none
    else none
  | none => none

/-- The auto-selection loop of `select_provider`
(`src/docsray/providers/registry.py` lines 117-130): score every provider
that can process the document, sort descending by score, take the first
(the tie-break among equal scores follows dict iteration order in the
source and is left unspecified by the spec; no theorem below depends on
it). -/
def autoSelect (providers : List (String × RProvider)) (document : Document)
    (operation : String) : Option RProvider :=
  (((providers.filterMap (fun kv =>
      if kv.2.canProcess document then
        some (scoreProvider kv.2.caps document operation, kv.2)
      else none)).insertionSort scoreGe).head?).map Prod.snd

/-- Embedding of `ProviderRegistry.select_provider`
(`src/docsray/providers/registry.py` lines 91-130): preference first,
auto-selection otherwise. -/
def selectProvider (providers : List (String × RProvider)) (document : Document)
    (operation : String) (user_preference : Option String) : Option RProvider :=
  match prefLookup providers document user_preference with
  | some p => some p
  | none => autoSelect providers document operation

/-! ### Path helpers shared by the caches and the mimic provider -/

/-- Index of the last `.` in a char list, if any. -/
def lastDotIdx : List Char → Option Nat
  | [] => none
  | c :: cs =>
    match lastDotIdx cs with
    | some i => some (i + 1)
    | none => if c = '.' then some 0 else none

/-- `PurePath.suffix`: pathlib returns `name[i:]` when the last dot sits at
index `i` with `0 < i < len(name) - 1`, and `""` otherwise (no dot, a
leading dot, or a trailing dot). -/
def pySuffix (name : String) : String :=
  match lastDotIdx name.data with
  | some i => if 0 < i ∧ i + 1 < name.data.length then ⟨name.data.drop i⟩ else ""
  | none => ""

/-- `PurePath.stem`: `name[:i]` under the same condition, else the whole
name. -/
def pyStem (name : String) : String :=
  match lastDotIdx name.data with
  | some i => if 0 < i ∧ i + 1 < name.data.length then ⟨name.data.take i⟩ else name
  | none => name

/-- `PurePath.name`: the final path component (after the last `/`). -/
def pathName (path : String) : String :=
  ⟨(path.data.reverse.takeWhile (fun c => c ≠ '/')).reverse⟩

/-- Python string slicing `s[:n]` (by characters). -/
def strTake (s : String) (n : Nat) : String :=
  ⟨s.data.take n⟩

/-! ### Persistent extraction cache (`src/docsray/utils/llamaparse_cache.py`) -/

/-- The fields of a cache directory's `metadata.json` that
`retrieve_extraction` reads (`src/docsray/utils/llamaparse_cache.py`
lines 80-90 write it, lines 192-204 read it). -/
structure LPMetaData where
  original_document : String
  document_hash : String
  parsing_instruction : Option String
deriving DecidableEq

/-- On-disk state of one cache directory: its `metadata.json` and its
`extraction_result.json`, each possibly missing. -/
structure LPCacheDir where
  metadata : Option LPMetaData
  extraction : Option JValue
deriving DecidableEq

/-- The slice of the filesystem the persistent cache touches: document
files (path to byte content, bytes embedded as a string) and cache
directories under the cache root (directory name to contents). -/
structure LPFS where
  docs : List (String × String)
  cacheDirs : List (String × LPCacheDir)
deriving DecidableEq

/-- Embedding of `LlamaParseCache._compute_document_hash`
(`src/docsray/utils/llamaparse_cache.py` lines 46-60): SHA-256 of the file
content when the path exists, else SHA-256 of the path string itself; the
digest is abstracted by `h`. -/
def computeDocumentHash (h : String → String) (fs : LPFS) (path : String) : String :=
  match alistLookup fs.docs path with
  | some content => h content
  | none => h path

/-- Embedding of `LlamaParseCache.get_cache_dir`
(`src/docsray/utils/llamaparse_cache.py` lines 31-44): the directory is
named `{stem}.{hash[:8]}.docsray` from the document's CURRENT content
hash. -/
def getCacheDir (h : String → String) (fs : LPFS) (path : String) : String :=
  pyStem (pathName path) ++ "." ++ strTake (computeDocumentHash h fs path) 8 ++ ".docsray"

/-- Python truthiness of the optional parsing instruction: `None` and `""`
are falsy. -/
def piTruthy : Option String → Bool
  | none => false
  | some s => s != ""

/-- Embedding of `LlamaParseCache.retrieve_extraction`
(`src/docsray/utils/llamaparse_cache.py` lines 169-220): miss when the
directory, its `metadata.json`, or its `extraction_result.json` is
missing; miss when the stored hash differs from the current hash; miss
when a truthy instruction is supplied and differs from the stored one
(`if parsing_instruction and metadata.get("parsing_instruction") !=
parsing_instruction` — a `None` or empty instruction skips the check);
otherwise the stored payload.  The filesystem is returned unchanged: the
source performs no writes or deletions on any path. -/
def retrieve_extraction (h : String → String) (fs : LPFS) (document_path : String)
    (parsing_instruction : Option String) : Option JValue × LPFS :=
  match alistLookup fs.cacheDirs (getCacheDir h fs document_path) with
  | none => (none, fs)
  | some cd =>
    match cd.metadata with
    | none => (none, fs)
    | some md =>
      if md.document_hash ≠ computeDocumentHash h fs document_path then (none, fs)
      else if piTruthy parsing_instruction = true ∧
          md.parsing_instruction ≠ parsing_instruction then (none, fs)
      else (cd.extraction, fs)

/-! ### Coarse-to-fine search (`src/docsray/providers/mimic_docsray.py`) -/

/-- The formats `MimicDocsrayProvider.get_supported_formats` returns
(`src/docsray/providers/mimic_docsray.py` lines 314-320) — extension names
WITHOUT a leading dot. -/
def mimicSupportedFormats : List String :=
  ["pdf", "docx", "doc", "pptx", "ppt", "xlsx", "xls",
   "txt", "md", "html", "xml", "json", "csv", "tsv",
   "rtf", "odt", "ods", "odp", "epub", "mobi",
   "png", "jpg", "jpeg", "tiff", "bmp", "gif", "webp"]

/-- A filesystem entry as seen by the `Path.rglob("*")` walk: full path,
final name component, and whether it is a regular file. -/
structure FsFile where
  path : String
  name : String
  isFile : Bool
deriving DecidableEq

/-- A phase-1 candidate record (`src/docsray/providers/mimic_docsray.py`
lines 1087-1092). -/
structure Candidate where
  path : String
  initial_score : ℚ
  preview : String
deriving DecidableEq

/-- Contiguous-substring scan: Python `needle in hay` on strings. -/
def subListScan (needle : List Char) : List Char → Bool
  | [] => needle.isEmpty
  | c :: rest => needle.isPrefixOf (c :: rest) || subListScan needle rest

/-- Case-insensitive substring test `a.lower() in b.lower()`. -/
def containsSub (a b : String) : Bool :=
  subListScan (pyLower a).data (pyLower b).data

/-- Embedding of `MimicDocsrayProvider._coarse_document_search`
(`src/docsray/providers/mimic_docsray.py` lines 1074-1094), the `rglob`
walk supplied as a list of entries.  The suffix test is the source's
`file_path.suffix.lower() in self.get_supported_formats()` — note the
suffix keeps its leading dot (".pdf") while the format list is dot-free
("pdf").  A passing file scores +0.5 when the query occurs in its
filename, and `if score > 0.0 or True` then admits every passing file. -/
def coarseDocumentSearch (query : String) (files : List FsFile) : List Candidate :=
  files.filterMap (fun f =>
    if f.isFile = true ∧ pyLower (pySuffix f.name) ∈ mimicSupportedFormats then
      some { path := f.path,
             initial_score := if containsSub query f.name then (1 : ℚ)/2 else 0,
             preview := "File: " ++ f.name }
    else none)

/-- A search result record (`src/docsray/providers/mimic_docsray.py`
lines 1042-1047). -/
structure SearchResult where
  path : String
  relevance_score : ℚ
  match_type : String
  preview : String
deriving DecidableEq

/-- Embedding of `_coarse_to_fine_search`'s phase-2 loop
(`src/docsray/providers/mimic_docsray.py` lines 1039-1047): each
candidate's fine score (supplied by the oracle standing for the awaited
`_fine_semantic_analysis`) is compared strictly against the 0.3
threshold. -/
def coarseToFineFilter (fineScore : Candidate → ℚ) (coarse : List Candidate) :
    List SearchResult :=
  coarse.filterMap (fun cand =>
    if fineScore cand > 3/10 then
      some { path := cand.path, relevance_score := fineScore cand,
             match_type := "semantic", preview := cand.preview }
    else none)

/-- Embedding of `_fine_semantic_analysis`'s no-embedding-model fallback
(`src/docsray/providers/mimic_docsray.py` lines 1112-1116): 0.6 when the
query occurs (case-insensitively) in the extracted text, 0.1 otherwise. -/
def fineSemanticFallback (query content : String) : ℚ :=
  if containsSub query content then 6/10 else 1/10

theorem alistLookup_mem {β : Type} {k : String} {v : β} :
    ∀ {l : List (String × β)}, alistLookup l k = some v → (k, v) ∈ l
  | [], h => by cases h
  | (k0, w) :: rest, h => by
    by_cases h0 : k0 = k
    · subst h0
      simp only [alistLookup, if_pos rfl] at h
      injection h with h
      subst h
      exact List.mem_cons_self _ _
    · simp only [alistLookup, if_neg h0] at h
      exact List.mem_cons_of_mem _ (alistLookup_mem h)

theorem prefLookup_canProcess {providers : List (String × RProvider)}
    {document : Document} {pref : Option String} {q : RProvider}
    (h : prefLookup providers document pref = some q) :
    q.canProcess document = true := by
  cases pref with
  | none => cases h
  | some n =>
    simp only [prefLookup] at h
    by_cases hc : n ≠ "" ∧ n ≠ "auto"
    · rw [if_pos hc] at h
      cases hlk : alistLookup providers n with
      | none => simp only [hlk] at h; cases h
      | some p =>
        simp only [hlk] at h
        by_cases hcp : p.canProcess document = true
        · rw [if_pos hcp] at h
          injection h with h
          rw [← h]
          exact hcp
        · rw [if_neg hcp] at h; cases h
    · rw [if_neg hc] at h; cases h

theorem autoSelect_canProcess {providers : List (String × RProvider)}
    {document : Document} {operation : String} {q : RProvider}
    (h : autoSelect providers document operation = some q) :
    q.canProcess document = true := by
  unfold autoSelect at h
  cases hh : (List.insertionSort scoreGe (providers.filterMap (fun kv =>
      if kv.2.canProcess document then
        some (scoreProvider kv.2.caps document operation, kv.2)
      else none))).head? with
  | none => rw [hh] at h; cases h
  | some sq =>
    rw [hh] at h
    injection h with h
    have hmem : sq ∈ List.insertionSort scoreGe (providers.filterMap (fun kv =>
        if kv.2.canProcess document then
          some (scoreProvider kv.2.caps document operation, kv.2)
        else none)) := by
      cases hl : List.insertionSort scoreGe (providers.filterMap (fun kv =>
          if kv.2.canProcess document then
            some (scoreProvider kv.2.caps document operation, kv.2)
          else none)) with
      | nil => rw [hl] at hh; cases hh
      | cons a t =>
        rw [hl] at hh
        injection hh with hh
        rw [← hh]
        exact List.mem_cons_self _ _
    have hmem2 := (List.perm_insertionSort scoreGe _).subset hmem
    obtain ⟨kv, hkv, heq⟩ := List.mem_filterMap.mp hmem2
    by_cases hcp : kv.2.canProcess document = true
    · rw [if_pos hcp] at heq
      injection heq with heq
      rw [← h, ← heq]
      exact hcp
    · rw [if_neg hcp] at heq; cases heq

theorem autoSelect_eq_none_iff {providers : List (String × RProvider)}
    {document : Document} {operation : String} :
    autoSelect providers document operation = none ↔
      ∀ kv ∈ providers, kv.2.canProcess document = false := by
  unfold autoSelect
  constructor
  · intro h kv hkv
    cases hh : (List.insertionSort scoreGe (providers.filterMap (fun kv =>
        if kv.2.canProcess document then
          some (scoreProvider kv.2.caps document operation, kv.2)
        else none))).head? with
    | some sq => rw [hh] at h; cases h
    | none =>
      have hnil := List.head?_eq_none_iff.mp hh
      have hperm := List.perm_insertionSort scoreGe (providers.filterMap (fun kv =>
        if kv.2.canProcess document then
          some (scoreProvider kv.2.caps document operation, kv.2)
        else none))
      rw [hnil] at hperm
      have hcand := hperm.symm.eq_nil
      have hall := List.filterMap_eq_nil_iff.mp hcand kv hkv
      by_cases hcp : kv.2.canProcess document = true
      · rw [if_pos hcp] at hall; cases hall
      · exact Bool.eq_false_iff.mpr hcp
  · intro hall
    have hcand : providers.filterMap (fun kv =>
        if kv.2.canProcess document then
          some (scoreProvider kv.2.caps document operation, kv.2)
        else none) = [] := by
      apply List.filterMap_eq_nil_iff.mpr
      intro kv hkv
      rw [if_neg (by simp [hall kv hkv])]
    rw [hcand]
    rfl

/-- C9: with a concrete (non-"auto", truthy) preferred name bound to a
registered provider `p`, `select_provider` returns `p` exactly when
`p.can_process(document)` is true (when it is false the registry falls
through to auto-selection, which can only return a provider that can
process the document); and the overall result is absent exactly when no
registered provider can process the document. -/
theorem select_provider_preference_and_fallback
    (providers : List (String × RProvider)) (document : Document)
    (operation : String) (name : String) (p : RProvider)
    (hlk : alistLookup providers name = some p)
    (hauto : name ≠ "auto") (hne : name ≠ "") :
    (selectProvider providers document operation (some name) = some p ↔
      p.canProcess document = true) ∧
    (selectProvider providers document operation (some name) = none ↔
      ∀ kv ∈ providers, kv.2.canProcess document = false) := by
  constructor
  · constructor
    · intro h
      unfold selectProvider at h
      cases hp : prefLookup providers document (some name) with
      | some q =>
        simp only [hp] at h
        injection h with h
        exact h ▸ prefLookup_canProcess hp
      | none =>
        simp only [hp] at h
        exact autoSelect_canProcess h
    · intro hcp
      simp only [selectProvider, prefLookup]
      rw [if_pos ⟨hne, hauto⟩]
      simp only [hlk]
      rw [if_pos hcp]
  · constructor
    · intro h
      unfold selectProvider at h
      cases hp : prefLookup providers document (some name) with
      | some q => simp only [hp] at h; cases h
      | none =>
        simp only [hp] at h
        exact autoSelect_eq_none_iff.mp h
    · intro hall
      have hcp : p.canProcess document = false :=
        hall (name, p) (alistLookup_mem hlk)
      simp only [selectProvider, prefLookup]
      rw [if_pos ⟨hne, hauto⟩]
      simp only [hlk]
      rw [if_neg (by simp [hcp])]
      exact autoSelect_eq_none_iff.mpr hall

/-- A tiny concrete registry for the C9 witness: a PDF-only provider and a
universal provider. -/
def wFastProvider : RProvider :=
  ⟨"fast", fun d => d.format == some "pdf", ⟨["pdf"], [], [("averageSpeed", 100)]⟩⟩

/-- Second provider of the C9 witness registry. -/
def wMimicProvider : RProvider :=
  ⟨"mimic", fun _ => true, ⟨["pdf", "txt"], [("tables", true)], [("averageSpeed", 20)]⟩⟩

/-- Witness for C9: concrete registry, preferred name "mimic", a text
document only the mimic provider can process. -/
theorem select_provider_preference_and_fallback_witness :
    (alistLookup [("fast", wFastProvider), ("mimic", wMimicProvider)] "mimic" =
        some wMimicProvider ∧
      ("mimic" : String) ≠ "auto" ∧ ("mimic" : String) ≠ "") ∧
    ((selectProvider [("fast", wFastProvider), ("mimic", wMimicProvider)]
          ⟨some "txt", some 100, false⟩ "extract" (some "mimic") = some wMimicProvider ↔
        wMimicProvider.canProcess ⟨some "txt", some 100, false⟩ = true) ∧
      (selectProvider [("fast", wFastProvider), ("mimic", wMimicProvider)]
          ⟨some "txt", some 100, false⟩ "extract" (some "mimic") = none ↔
        ∀ kv ∈ [("fast", wFastProvider), ("mimic", wMimicProvider)],
          kv.2.canProcess ⟨some "txt", some 100, false⟩ = false)) :=
  ⟨⟨rfl, by decide, by decide⟩,
    select_provider_preference_and_fallback
      [("fast", wFastProvider), ("mimic", wMimicProvider)]
      ⟨some "txt", some 100, false⟩ "extract" "mimic" wMimicProvider
      rfl (by decide) (by decide)⟩

/-- C4 (amended): `retrieve_extraction` returns a payload exactly when the
cache directory (keyed by the document's CURRENT hash), its metadata and
its extraction result all exist, the stored hash equals the current hash,
and any supplied NON-EMPTY instruction equals the stored one exactly; what
is returned is the stored payload; and the filesystem is untouched (no
cache directory is deleted).  Amendment: a supplied empty-string
instruction is falsy in Python, so the source skips the instruction
comparison for it — the original claim demanded a miss for every supplied
instruction that differs from the stored one. -/
theorem retrieve_extraction_spec (h : String → String) (fs : LPFS)
    (document_path : String) (pi : Option String) :
    ((retrieve_extraction h fs document_path pi).1 ≠ none ↔
      ∃ cd md payload,
        alistLookup fs.cacheDirs (getCacheDir h fs document_path) = some cd ∧
        cd.metadata = some md ∧ cd.extraction = some payload ∧
        md.document_hash = computeDocumentHash h fs document_path ∧
        (∀ s : String, pi = some s → s ≠ "" → md.parsing_instruction = some s)) ∧
    (∀ payload, (retrieve_extraction h fs document_path pi).1 = some payload →
      ∃ cd, alistLookup fs.cacheDirs (getCacheDir h fs document_path) = some cd ∧
        cd.extraction = some payload) ∧
    (retrieve_extraction h fs document_path pi).2 = fs := by
  cases hcd : alistLookup fs.cacheDirs (getCacheDir h fs document_path) with
  | none =>
    have hval : retrieve_extraction h fs document_path pi = (none, fs) := by
      simp only [retrieve_extraction, hcd]
    rw [hval]
    refine ⟨?_, by simp, rfl⟩
    simp
  | some cd =>
    cases hmd : cd.metadata with
    | none =>
      have hval : retrieve_extraction h fs document_path pi = (none, fs) := by
        simp only [retrieve_extraction, hcd, hmd]
      rw [hval]
      refine ⟨?_, by simp, rfl⟩
      constructor
      · intro hne
        exact absurd rfl hne
      · rintro ⟨cd1, md, payload, hcd1, hmd1, -⟩
        rw [Option.some.injEq] at hcd1
        subst hcd1
        rw [hmd] at hmd1
        cases hmd1
    | some md =>
      by_cases hhash : md.document_hash ≠ computeDocumentHash h fs document_path
      · have hval : retrieve_extraction h fs document_path pi = (none, fs) := by
          simp only [retrieve_extraction, hcd, hmd, if_pos hhash]
        rw [hval]
        refine ⟨?_, by simp, rfl⟩
        constructor
        · intro hne
          exact absurd rfl hne
        · rintro ⟨cd1, md1, payload, hcd1, hmd1, hext, hh, -⟩
          rw [Option.some.injEq] at hcd1
          subst hcd1
          rw [hmd, Option.some.injEq] at hmd1
          subst hmd1
          exact (hhash hh).elim
      · rw [not_not] at hhash
        by_cases hpi : piTruthy pi = true ∧ md.parsing_instruction ≠ pi
        · have hval : retrieve_extraction h fs document_path pi = (none, fs) := by
            simp only [retrieve_extraction, hcd, hmd,
              if_neg (not_not_intro hhash), if_pos hpi]
          rw [hval]
          refine ⟨?_, by simp, rfl⟩
          constructor
          · intro hne
            exact absurd rfl hne
          · rintro ⟨cd1, md1, payload, hcd1, hmd1, hext, hh, hinstr⟩
            rw [Option.some.injEq] at hcd1
            subst hcd1
            rw [hmd, Option.some.injEq] at hmd1
            subst hmd1
            cases pi with
            | none => simp [piTruthy] at hpi
            | some s =>
              have hs : s ≠ "" := by
                have := hpi.1
                simp [piTruthy] at this
                exact this
              exact (hpi.2 (hinstr s rfl hs)).elim
        · have hval : retrieve_extraction h fs document_path pi =
              (cd.extraction, fs) := by
            simp only [retrieve_extraction, hcd, hmd,
              if_neg (not_not_intro hhash), if_neg hpi]
          rw [hval]
          refine ⟨?_, ?_, rfl⟩
          · constructor
            · intro hne
              cases hext : cd.extraction with
              | none => rw [hext] at hne; exact absurd rfl hne
              | some payload =>
                refine ⟨cd, md, payload, rfl, hmd, hext, hhash, ?_⟩
                intro s hs hsne
                subst hs
                rcases not_and_or.mp hpi with h1 | h2
                · exact absurd (by simp [piTruthy, hsne]) h1
                · exact not_not.mp h2
            · rintro ⟨cd1, md1, payload, hcd1, hmd1, hext, -, -⟩
              rw [Option.some.injEq] at hcd1
              subst hcd1
              rw [hext]
              simp
          · intro payload hp
            exact ⟨cd, rfl, hp⟩

/-- C4 counterexample: with stored instruction "A", a query that SUPPLIES
the (empty) instruction "" is served the payload — the empty instruction
is falsy in Python, so the comparison with the differing stored
instruction is skipped, where the claim as stated requires a miss whenever
a supplied instruction differs from the stored one. -/
theorem retrieve_extraction_claim_counterexample :
    (retrieve_extraction id
        ⟨[("/d/doc.txt", "CONTENT")],
          [("doc.CONTENT.docsray",
            ⟨some ⟨"/d/doc.txt", "CONTENT", some "A"⟩, some (.str "payload")⟩)]⟩
        "/d/doc.txt" (some "")).1 = some (.str "payload") ∧
    (∃ cd, alistLookup
        (LPFS.mk [("/d/doc.txt", "CONTENT")]
          [("doc.CONTENT.docsray",
            ⟨some ⟨"/d/doc.txt", "CONTENT", some "A"⟩,
              some (.str "payload")⟩)]).cacheDirs
        (getCacheDir id
          ⟨[("/d/doc.txt", "CONTENT")],
            [("doc.CONTENT.docsray",
              ⟨some ⟨"/d/doc.txt", "CONTENT", some "A"⟩,
                some (.str "payload")⟩)]⟩
          "/d/doc.txt") = some cd ∧
      cd.metadata = some ⟨"/d/doc.txt", "CONTENT", some "A"⟩) ∧
    ("" : String) ≠ "A" := by
  refine ⟨by decide, ⟨⟨some ⟨"/d/doc.txt", "CONTENT", some "A"⟩,
    some (.str "payload")⟩, by decide, by decide⟩, by decide⟩

theorem lastDotIdx_drop :
    ∀ (cs : List Char) (i : Nat), lastDotIdx cs = some i →
      ∃ rest, cs.drop i = '.' :: rest
  | [], i, h => by cases h
  | c :: cs, i, h => by
    simp only [lastDotIdx] at h
    cases hl : lastDotIdx cs with
    | some j =>
      simp only [hl] at h
      injection h with h
      subst h
      obtain ⟨rest, hr⟩ := lastDotIdx_drop cs j hl
      exact ⟨rest, by simpa [List.drop_succ_cons] using hr⟩
    | none =>
      simp only [hl] at h
      by_cases hc : c = '.'
      · rw [if_pos hc] at h
        injection h with h
        subst h
        exact ⟨cs, by simp [hc]⟩
      · rw [if_neg hc] at h
        cases h

/-- The (lowercased) pathlib suffix of any filename is the empty string or
starts with a literal dot — so it is never a member of the dot-free
supported-format list. -/
theorem suffix_lower_not_supported (name : String) :
    pyLower (pySuffix name) ∉ mimicSupportedFormats := by
  have hfacts : ∀ x ∈ mimicSupportedFormats, x ≠ "" ∧ x.data.head? ≠ some '.' := by
    decide
  intro hmem
  cases hsd : lastDotIdx name.data with
  | none =>
    rw [show pySuffix name = "" from by simp [pySuffix, hsd]] at hmem
    exact (hfacts _ hmem).1 rfl
  | some i =>
    by_cases hcond : 0 < i ∧ i + 1 < name.data.length
    · rw [show pySuffix name = ⟨name.data.drop i⟩ from by
        simp only [pySuffix, hsd]; rw [if_pos hcond]] at hmem
      obtain ⟨rest, hr⟩ := lastDotIdx_drop name.data i hsd
      have hh : (pyLower ⟨name.data.drop i⟩).data.head? = some '.' := by
        simp [pyLower, hr]
      exact (hfacts _ hmem).2 hh
    · rw [show pySuffix name = "" from by
        simp only [pySuffix, hsd]; rw [if_neg hcond]] at hmem
      exact (hfacts _ hmem).1 rfl

/-- C6 (evaluation of the code at the failing input): phase 1 of the
coarse-to-fine search NEVER collects a candidate — for every query and
every filesystem the coarse pass is empty, because
`file_path.suffix.lower()` keeps its leading dot (".pdf") while
`get_supported_formats()` lists dot-free names ("pdf"), so the membership
test is always false; in particular the failing input (a regular file
`report.pdf` under the search path, query "report") yields `[]` where the
claim expects a candidate with initial score 0.5.  The phase-2 threshold
clause of the claim does match the code: a result is produced for a
candidate exactly when its fine score is strictly greater than 0.3, so a
fallback score 0.6 (query present) passes and 0.1 fails, and the boundary
scores 0.3 / 0.31 are excluded / included. -/
theorem coarse_search_always_empty (query : String) (files : List FsFile)
    (fineScore : Candidate → ℚ) (coarse : List Candidate) (r : SearchResult) :
    coarseDocumentSearch query files = [] ∧
    coarseDocumentSearch "report" [⟨"/docs/report.pdf", "report.pdf", true⟩] = [] ∧
    (r ∈ coarseToFineFilter fineScore coarse ↔
      ∃ cand ∈ coarse, fineScore cand > 3/10 ∧
        r = ⟨cand.path, fineScore cand, "semantic", cand.preview⟩) ∧
    coarseToFineFilter (fun _ => 3/10) [⟨"/p", 0, "File: p"⟩] = [] ∧
    coarseToFineFilter (fun _ => 31/100) [⟨"/p", 0, "File: p"⟩] =
      [⟨"/p", 31/100, "semantic", "File: p"⟩] ∧
    fineSemanticFallback "budget" "annual budget report" = 6/10 ∧
    fineSemanticFallback "budget" "unrelated text" = 1/10 := by
  refine ⟨?_, by decide, ?_, ?_, ?_,
    by simp [fineSemanticFallback,
      show containsSub "budget" "annual budget report" = true from by decide],
    by simp [fineSemanticFallback,
      show containsSub "budget" "unrelated text" = false from by decide]⟩
  · apply List.filterMap_eq_nil_iff.mpr
    intro f hf
    rw [if_neg (fun hc => suffix_lower_not_supported f.name hc.2)]
  · simp only [coarseToFineFilter, List.mem_filterMap]
    constructor
    · rintro ⟨cand, hc, hife⟩
      by_cases hgt : fineScore cand > 3/10
      · rw [if_pos hgt] at hife
        injection hife with hife
        exact ⟨cand, hc, hgt, hife.symm⟩
      · rw [if_neg hgt] at hife
        cases hife
    · rintro ⟨cand, hc, hgt, rfl⟩
      exact ⟨cand, hc, by rw [if_pos hgt]⟩
  · simp only [coarseToFineFilter, List.filterMap]
    norm_num
  · simp only [coarseToFineFilter, List.filterMap]
    norm_num

/-! ### Tool handlers (`src/docsray/tools/fetch.py`, `src/docsray/tools/extract.py`)

Tool responses are Python dicts, embedded as association lists of
`JValue`s.  Exact message strings that interpolate Python values
(`f"Invalid extraction targets: {invalid_targets}"` and the like) are
embedded with their interpolation elided; the claims below depend only on
which keys a response carries. -/

/-- Generic dict assignment `d[k] = v` (same semantics as `dictSet`). -/
def alistSet {β : Type} (l : List (String × β)) (k : String) (v : β) :
    List (String × β) :=
  if (alistLookup l k).isSome then
    l.map (fun kv => if kv.1 = k then (k, v) else kv)
  else l ++ [(k, v)]

/-- `k in d` for a response dict. -/
def hasKey (l : List (String × JValue)) (k : String) : Bool :=
  (alistLookup l k).isSome

/-- Outcome of `resolve_path` + `stat` inside `_fetch_from_filesystem`
(`src/docsray/tools/fetch.py` lines 300-304 and the handlers at lines
353-372): a resolved regular file with size and detected format, or one of
the exceptions the tool catches. -/
inductive ResolveOutcome where
  | ok (resolvedPath : String) (fileSize : Nat) (format : Option String)
  | fileNotFound
  | permissionError
  | otherError (msg ty : String)

/-- `None` renders as JSON null inside a response dict. -/
def jsonOfOpt : Option String → JValue
  | some s => .str s
  | none => .null

/-- The `Document` the fetch tool builds for the `processed` branch
(`src/docsray/tools/fetch.py` lines 326-329): format falls back to "pdf"
for a Python-falsy detection result, no size, not scanned. -/
def fetchDocument (format? : Option String) : Document :=
  ⟨some (match format? with
    | some f => if f = "" then "pdf" else f
    | none => "pdf"), none, false⟩

/-- The provider-processing step of the `processed` branch
(`src/docsray/tools/fetch.py` lines 330-345): extract with the selected
provider (an exception becomes a warning), or warn that no provider is
available. -/
def fetchProcessedBranch (result : List (String × JValue))
    (sel : Option RProvider)
    (extractOutcome : RProvider → Except String String) :
    List (String × JValue) :=
  match sel with
  | some p =>
    match extractOutcome p with
    | .ok content =>
      alistSet (alistSet result "processedContent" (.str content))
        "provider" (.str p.name)
    | .error msg =>
      alistSet result "warning" (.str ("Processing failed: " ++ msg))
  | none => alistSet result "warning" (.str "No provider available for processing")

/-- Embedding of `_fetch_from_filesystem` (`src/docsray/tools/fetch.py`
lines 281-372).  `hashOf` abstracts `calculate_file_hash`;
`extractOutcome` gives, per provider, the awaited `extract` call's content
or the exception it raised (the `try` around the processed branch turns
any such exception into a warning). -/
def fetchFromFilesystem (path : String) (return_format : String)
    (provider : String) (registry : List (String × RProvider))
    (resolve : ResolveOutcome) (hashOf : String → String)
    (extractOutcome : RProvider → Except String String) :
    List (String × JValue) :=
  match resolve with
  | .fileNotFound =>
    [("error", .str ("File not found: " ++ path)),
     ("type", .str "FileNotFoundError"), ("path", .str path),
     ("suggestion", .str "Check that the file path exists and is accessible")]
  | .permissionError =>
    [("error", .str ("Permission denied accessing: " ++ path)),
     ("type", .str "PermissionError"), ("path", .str path),
     ("suggestion", .str "Check file permissions")]
  | .otherError msg ty =>
    [("error", .str ("Failed to access file: " ++ msg)), ("type", .str ty),
     ("path", .str path)]
  | .ok resolvedPath fileSize format? =>
    let result := [("path", .str path), ("resolvedPath", .str resolvedPath),
      ("fileSize", .num fileSize), ("format", jsonOfOpt format?),
      ("exists", .bool true)]
    if return_format = "metadata-only" then result
    else if return_format = "raw" then
      alistSet result "fileHash" (.str (hashOf resolvedPath))
    else if return_format = "processed" then
      fetchProcessedBranch result
        (selectProvider registry (fetchDocument format?) "extract" (some provider))
        extractOutcome
    else result

/-- The body of `handle_fetch` after validation and cache lookup: the
helper's result dict, or an exception escaping to the handler's top-level
`except`. -/
inductive BodyOutcome where
  | ok (result : List (String × JValue))
  | raised (msg ty : String)

/-- Trace of one `handle_fetch` run: the returned response, whether
`cache.get` was called, and the responses passed to `cache.set`. -/
structure FetchTrace where
  response : List (String × JValue)
  readCache : Bool
  cacheWrites : List (List (String × JValue))
deriving DecidableEq

/-- The valid cache strategies (`src/docsray/tools/fetch.py` line 54). -/
def validStrategies : List String := ["use-cache", "bypass-cache", "refresh-cache"]

/-- The valid return formats (`src/docsray/tools/fetch.py` line 62). -/
def validFormats : List String := ["raw", "processed", "metadata-only"]

/-- The decoration `handle_fetch` applies to a fresh result before
returning/caching it (`src/docsray/tools/fetch.py` lines 103-107). -/
def fetchDecorate (source cache_strategy return_format : String)
    (result : List (String × JValue)) : List (String × JValue) :=
  alistSet (alistSet (alistSet (alistSet result
    "source" (.str source)) "cacheStrategy" (.str cache_strategy))
    "returnFormat" (.str return_format)) "fromCache" (.bool false)

/-- The tail of `handle_fetch` once the flow reaches the fetch itself
(`src/docsray/tools/fetch.py` lines 93-125): run the helper (or catch the
exception escaping it into `{error, type, source}`), decorate the result
with source/cacheStrategy/returnFormat/fromCache, and `cache.set` it
unless the strategy is `bypass-cache`. -/
def fetchProceed (source cache_strategy return_format : String) (rc : Bool)
    (body : BodyOutcome) : FetchTrace :=
  match body with
  | .raised msg ty =>
    { response := [("error", .str msg), ("type", .str ty), ("source", .str source)],
      readCache := rc, cacheWrites := [] }
  | .ok result =>
    if cache_strategy ≠ "bypass-cache" then
      { response := fetchDecorate source cache_strategy return_format result,
        readCache := rc,
        cacheWrites := [fetchDecorate source cache_strategy return_format result] }
    else
      { response := fetchDecorate source cache_strategy return_format result,
        readCache := rc, cacheWrites := [] }

/-- Embedding of `handle_fetch` (`src/docsray/tools/fetch.py` lines
29-125).  `cachedResult` is what `cache.get` returns for this request's
key; `none` embeds both a miss and a falsy cached value, which Python's
`if cached_result:` treats alike.  `body` is the outcome of the
`_fetch_from_url`/`_fetch_from_filesystem` call for this source. -/
def handleFetch (source cache_strategy return_format : String)
    (cachedResult : Option (List (String × JValue)))
    (body : BodyOutcome) : FetchTrace :=
  if cache_strategy ∉ validStrategies then
    { response := [("error", .str ("Invalid cache strategy: " ++ cache_strategy)),
        ("validStrategies", .arr (validStrategies.map .str))],
      readCache := false, cacheWrites := [] }
  else if return_format ∉ validFormats then
    { response := [("error", .str ("Invalid return format: " ++ return_format)),
        ("validFormats", .arr (validFormats.map .str))],
      readCache := false, cacheWrites := [] }
  else if cache_strategy = "use-cache" then
    match cachedResult with
    | some r =>
      { response := alistSet r "fromCache" (.bool true),
        readCache := true, cacheWrites := [] }
    | none => fetchProceed source cache_strategy return_format true body
  else fetchProceed source cache_strategy return_format false body

/-- What the provider's awaited `extract` produced for the extract tool
(`src/docsray/tools/extract.py` lines 92-96), or the exception that
escaped to the handler's top-level `except`. -/
structure ExtractResultModel where
  content : JValue
  format : String
  pages_processed : List Int
  statistics : Option JValue

/-- Trace of one `handle_extract` run: the returned response and the
responses passed to `cache.set`. -/
structure ExtractTrace where
  response : List (String × JValue)
  cacheWrites : List (List (String × JValue))

/-- The valid extraction targets (`src/docsray/tools/extract.py`
line 39). -/
def validTargets : List String :=
  ["text", "tables", "images", "forms", "metadata", "equations", "layout"]

/-- The success response `handle_extract` shapes and caches
(`src/docsray/tools/extract.py` lines 98-121): content/format/provider
always, `pagesProcessed`/`statistics`/`warnings` only when truthy (a
Python empty list, `None` or empty dict adds no key). -/
def extractSuccessResponse (p : RProvider) (result : ExtractResultModel)
    (unsupported : List String) : List (String × JValue) :=
  let response := [("content", result.content),
    ("format", .str result.format), ("provider", .str p.name)]
  let response :=
    if result.pages_processed ≠ [] then
      alistSet response "pagesProcessed" (.arr (result.pages_processed.map .num))
    else response
  let response :=
    match result.statistics with
    | some stats => alistSet response "statistics" stats
    | none => response
  if unsupported ≠ [] then
    alistSet response "warnings"
      (.arr [.str "The following targets are not supported (list elided)"])
  else response

/-- Embedding of `handle_extract` (`src/docsray/tools/extract.py` lines
14-130): validate the targets; return a cached response verbatim (without
re-caching it); error when no provider is available; collect warnings for
requested-but-undeclared tables/images/forms; catch an extraction
exception into `{error, type}`; and cache exactly the success response.
Empty `pages_processed` lists and `None`/empty statistics are falsy in
Python, so those keys are added only for non-empty values. -/
def handleExtract (extraction_targets : List String)
    (cachedResult : Option (List (String × JValue)))
    (docFormat : Option String)
    (selected : Option RProvider)
    (extractOutcome : Except (String × String) ExtractResultModel) : ExtractTrace :=
  if extraction_targets.filter (fun t => t ∉ validTargets) ≠ [] then
    { response := [("error", .str "Invalid extraction targets: (list elided)"),
        ("validTargets", .arr (validTargets.map .str))],
      cacheWrites := [] }
  else
    match cachedResult with
    | some r => { response := r, cacheWrites := [] }
    | none =>
      match selected with
      | none =>
        { response := [("error",
            .str ("No provider available for " ++
              (match docFormat with | some f => f | none => "None") ++ " documents")),
            ("suggestion",
              .str "Try installing additional providers or use a different format")],
          cacheWrites := [] }
      | some p =>
        let unsupported := ["tables", "images", "forms"].filter (fun t =>
          t ∈ extraction_targets ∧ featureFlag p.caps t = false)
        match extractOutcome with
        | .error e =>
          { response := [("error", .str e.1), ("type", .str e.2)], cacheWrites := [] }
        | .ok result =>
          { response := extractSuccessResponse p result unsupported,
            cacheWrites := [extractSuccessResponse p result unsupported] }

theorem alistLookup_map_replace {β : Type} (k : String) (v : β) :
    ∀ l : List (String × β),
      alistLookup (l.map (fun kv => if kv.1 = k then (k, v) else kv)) k =
        if (alistLookup l k).isSome then some v else none
  | [] => rfl
  | (k0, w) :: rest => by
    by_cases h : k0 = k
    · rw [List.map_cons,
        show (if ((k0, w) : String × β).1 = k then (k, v) else (k0, w)) = (k, v) from
          by simp [h]]
      simp [alistLookup, h]
    · rw [List.map_cons,
        show (if ((k0, w) : String × β).1 = k then (k, v) else (k0, w)) = (k0, w) from
          by simp [h]]
      simp only [alistLookup, if_neg h]
      exact alistLookup_map_replace k v rest

theorem alistLookup_append_single_self {β : Type} (k : String) (v : β) :
    ∀ l : List (String × β), alistLookup l k = none →
      alistLookup (l ++ [(k, v)]) k = some v
  | [], _ => by simp [alistLookup]
  | (k0, w) :: rest, h => by
    by_cases hk : k0 = k
    · simp only [alistLookup, if_pos hk] at h
      cases h
    · simp only [alistLookup, if_neg hk] at h
      simp only [List.cons_append, alistLookup, if_neg hk]
      exact alistLookup_append_single_self k v rest h

theorem alistLookup_alistSet_self {β : Type} (l : List (String × β)) (k : String)
    (v : β) : alistLookup (alistSet l k v) k = some v := by
  unfold alistSet
  by_cases h : (alistLookup l k).isSome
  · rw [if_pos h, alistLookup_map_replace, if_pos h]
  · rw [if_neg h]
    exact alistLookup_append_single_self k v l (Option.not_isSome_iff_eq_none.mp h)

theorem alistLookup_map_replace_ne {β : Type} {k k' : String} (hne : k' ≠ k) (v : β) :
    ∀ l : List (String × β),
      alistLookup (l.map (fun kv => if kv.1 = k then (k, v) else kv)) k' =
        alistLookup l k'
  | [] => rfl
  | (k0, w) :: rest => by
    rw [List.map_cons]
    by_cases h0 : k0 = k
    · rw [show (if ((k0, w) : String × β).1 = k then (k, v) else (k0, w)) = (k, v) from
        by simp [h0]]
      simp only [alistLookup]
      rw [if_neg (Ne.symm hne), if_neg (fun hc : k0 = k' => hne ((h0.symm.trans hc).symm))]
      exact alistLookup_map_replace_ne hne v rest
    · rw [show (if ((k0, w) : String × β).1 = k then (k, v) else (k0, w)) = (k0, w) from
        by simp [h0]]
      simp only [alistLookup]
      by_cases h1 : k0 = k'
      · rw [if_pos h1, if_pos h1]
      · rw [if_neg h1, if_neg h1]
        exact alistLookup_map_replace_ne hne v rest

theorem alistLookup_append_single_ne {β : Type} {k k' : String} (hne : k' ≠ k) (v : β) :
    ∀ l : List (String × β), alistLookup (l ++ [(k, v)]) k' = alistLookup l k'
  | [] => by simp [alistLookup, Ne.symm hne]
  | (k0, w) :: rest => by
    simp only [List.cons_append, alistLookup]
    by_cases h1 : k0 = k'
    · rw [if_pos h1, if_pos h1]
    · rw [if_neg h1, if_neg h1]
      exact alistLookup_append_single_ne hne v rest

theorem alistLookup_alistSet_ne {β : Type} {k k' : String} (hne : k' ≠ k)
    (l : List (String × β)) (v : β) :
    alistLookup (alistSet l k v) k' = alistLookup l k' := by
  unfold alistSet
  split_ifs
  · exact alistLookup_map_replace_ne hne v l
  · exact alistLookup_append_single_ne hne v l

theorem hasKey_alistSet (l : List (String × JValue)) (k k' : String) (v : JValue) :
    hasKey (alistSet l k v) k' = if k' = k then true else hasKey l k' := by
  by_cases h : k' = k
  · subst h
    rw [if_pos rfl]
    unfold hasKey
    rw [alistLookup_alistSet_self]
    rfl
  · rw [if_neg h]
    unfold hasKey
    rw [alistLookup_alistSet_ne h]

theorem hasKey_fetchDecorate_error (s c r : String) (l : List (String × JValue)) :
    hasKey (fetchDecorate s c r l) "error" = hasKey l "error" := by
  unfold fetchDecorate
  rw [hasKey_alistSet, if_neg (by decide), hasKey_alistSet, if_neg (by decide),
    hasKey_alistSet, if_neg (by decide), hasKey_alistSet, if_neg (by decide)]

theorem extract_success_no_error (p : RProvider) (result : ExtractResultModel)
    (unsupported : List String) :
    hasKey (extractSuccessResponse p result unsupported) "error" = false := by
  cases hst : result.statistics <;>
    by_cases h1 : result.pages_processed ≠ [] <;>
    by_cases h3 : unsupported ≠ [] <;>
    simp [extractSuccessResponse, hst, h1, h3, hasKey_alistSet, hasKey, alistLookup]

/-- C8: for a successful local-file fetch, `metadata-only` responses carry
neither `fileHash` nor `processedContent`; `raw` responses carry
`fileHash` but never `processedContent`; `processed` responses carry
`processedContent` (and the provider's name) whenever the registry selects
a provider whose extraction succeeds, and a `warning` with no
`processedContent` when no provider is available. -/
theorem fetch_filesystem_return_format_contract
    (path resolvedPath : String) (fileSize : Nat) (format? : Option String)
    (provider : String) (registry : List (String × RProvider))
    (hashOf : String → String) (extractOutcome : RProvider → Except String String) :
    (hasKey (fetchFromFilesystem path "metadata-only" provider registry
        (.ok resolvedPath fileSize format?) hashOf extractOutcome) "fileHash" = false ∧
      hasKey (fetchFromFilesystem path "metadata-only" provider registry
        (.ok resolvedPath fileSize format?) hashOf extractOutcome)
        "processedContent" = false) ∧
    (hasKey (fetchFromFilesystem path "raw" provider registry
        (.ok resolvedPath fileSize format?) hashOf extractOutcome) "fileHash" = true ∧
      hasKey (fetchFromFilesystem path "raw" provider registry
        (.ok resolvedPath fileSize format?) hashOf extractOutcome)
        "processedContent" = false) ∧
    ((∀ p content,
        selectProvider registry (fetchDocument format?) "extract" (some provider) =
          some p →
        extractOutcome p = .ok content →
        hasKey (fetchFromFilesystem path "processed" provider registry
          (.ok resolvedPath fileSize format?) hashOf extractOutcome)
          "processedContent" = true ∧
        hasKey (fetchFromFilesystem path "processed" provider registry
          (.ok resolvedPath fileSize format?) hashOf extractOutcome)
          "provider" = true) ∧
      (selectProvider registry (fetchDocument format?) "extract" (some provider) =
          none →
        hasKey (fetchFromFilesystem path "processed" provider registry
          (.ok resolvedPath fileSize format?) hashOf extractOutcome) "warning" = true ∧
        hasKey (fetchFromFilesystem path "processed" provider registry
          (.ok resolvedPath fileSize format?) hashOf extractOutcome)
          "processedContent" = false)) := by
  have hraw : fetchFromFilesystem path "raw" provider registry
      (.ok resolvedPath fileSize format?) hashOf extractOutcome =
      alistSet [("path", .str path), ("resolvedPath", .str resolvedPath),
        ("fileSize", .num fileSize), ("format", jsonOfOpt format?),
        ("exists", .bool true)] "fileHash" (.str (hashOf resolvedPath)) := rfl
  have hproc : fetchFromFilesystem path "processed" provider registry
      (.ok resolvedPath fileSize format?) hashOf extractOutcome =
      fetchProcessedBranch [("path", .str path), ("resolvedPath", .str resolvedPath),
        ("fileSize", .num fileSize), ("format", jsonOfOpt format?),
        ("exists", .bool true)]
        (selectProvider registry (fetchDocument format?) "extract" (some provider))
        extractOutcome := rfl
  refine ⟨⟨rfl, rfl⟩, ⟨?_, rfl⟩, ?_, ?_⟩
  · rw [hraw, hasKey_alistSet, if_pos rfl]
  · intro p content hsel hext
    rw [hproc, hsel]
    have hval : fetchProcessedBranch [("path", .str path),
        ("resolvedPath", .str resolvedPath), ("fileSize", .num fileSize),
        ("format", jsonOfOpt format?), ("exists", .bool true)] (some p)
        extractOutcome =
        alistSet (alistSet [("path", .str path), ("resolvedPath", .str resolvedPath),
          ("fileSize", .num fileSize), ("format", jsonOfOpt format?),
          ("exists", .bool true)] "processedContent" (.str content))
          "provider" (.str p.name) := by
      simp only [fetchProcessedBranch, hext]
    rw [hval]
    constructor
    · rw [hasKey_alistSet, if_neg (by decide), hasKey_alistSet, if_pos rfl]
    · rw [hasKey_alistSet, if_pos rfl]
  · intro hsel
    rw [hproc, hsel]
    constructor
    · rw [show fetchProcessedBranch [("path", .str path),
        ("resolvedPath", .str resolvedPath), ("fileSize", .num fileSize),
        ("format", jsonOfOpt format?), ("exists", .bool true)] none extractOutcome =
        alistSet [("path", .str path), ("resolvedPath", .str resolvedPath),
          ("fileSize", .num fileSize), ("format", jsonOfOpt format?),
          ("exists", .bool true)] "warning"
          (.str "No provider available for processing") from rfl]
      rw [hasKey_alistSet, if_pos rfl]
    · rw [show fetchProcessedBranch [("path", .str path),
        ("resolvedPath", .str resolvedPath), ("fileSize", .num fileSize),
        ("format", jsonOfOpt format?), ("exists", .bool true)] none extractOutcome =
        alistSet [("path", .str path), ("resolvedPath", .str resolvedPath),
          ("fileSize", .num fileSize), ("format", jsonOfOpt format?),
          ("exists", .bool true)] "warning"
          (.str "No provider available for processing") from rfl]
      rw [hasKey_alistSet, if_neg (by decide)]
      rfl

/-- C7 (amended): with valid inputs, `handle_fetch` reads a prior result
from the Generic Result Cache exactly when the strategy is `use-cache`
(`refresh-cache` does NOT read — the amendment), and when a fresh result
is produced (no early cached return) it is written back exactly when the
strategy is not `bypass-cache`. -/
theorem fetch_cache_read_write_policy (source return_format cache_strategy : String)
    (cachedF : Option (List (String × JValue))) (result : List (String × JValue))
    (hcs : cache_strategy ∈ validStrategies) (hrf : return_format ∈ validFormats) :
    ((handleFetch source cache_strategy return_format cachedF
        (.ok result)).readCache = true ↔ cache_strategy = "use-cache") ∧
    (¬(cache_strategy = "use-cache" ∧ cachedF.isSome = true) →
      ((handleFetch source cache_strategy return_format cachedF
          (.ok result)).cacheWrites ≠ [] ↔ cache_strategy ≠ "bypass-cache")) := by
  unfold handleFetch
  rw [if_neg (not_not_intro hcs), if_neg (not_not_intro hrf)]
  by_cases hu : cache_strategy = "use-cache"
  · subst hu
    rw [if_pos rfl]
    cases cachedF with
    | some r =>
      exact ⟨⟨fun _ => rfl, fun _ => rfl⟩, fun hno => absurd ⟨rfl, rfl⟩ hno⟩
    | none =>
      exact ⟨⟨fun _ => rfl, fun _ => rfl⟩,
        fun _ => ⟨fun _ => by decide, fun _ => List.cons_ne_nil _ _⟩⟩
  · rw [if_neg hu]
    by_cases hb : cache_strategy = "bypass-cache"
    · subst hb
      exact ⟨⟨fun hc => absurd hc Bool.false_ne_true, fun hc => absurd hc hu⟩,
        fun _ => ⟨fun hc => absurd rfl hc, fun hc => absurd rfl hc⟩⟩
    · have hfp0 : fetchProceed source cache_strategy return_format false (.ok result) =
          if cache_strategy ≠ "bypass-cache" then
            { response := fetchDecorate source cache_strategy return_format result,
              readCache := false,
              cacheWrites := [fetchDecorate source cache_strategy return_format result] }
          else
            { response := fetchDecorate source cache_strategy return_format result,
              readCache := false, cacheWrites := [] } := rfl
      rw [hfp0, if_pos hb]
      exact ⟨⟨fun hc => absurd hc Bool.false_ne_true, fun hc => absurd hc hu⟩,
        fun _ => ⟨fun _ => hb, fun _ => List.cons_ne_nil _ _⟩⟩

/-- Witness for C7's amended policy: strategy `use-cache`, format `raw`,
an empty cache, a fresh empty result. -/
theorem fetch_cache_read_write_policy_witness :
    (("use-cache" : String) ∈ validStrategies ∧ ("raw" : String) ∈ validFormats) ∧
    (((handleFetch "doc.pdf" "use-cache" "raw" none (.ok [])).readCache = true ↔
        ("use-cache" : String) = "use-cache") ∧
      (¬(("use-cache" : String) = "use-cache" ∧ (none : Option (List (String × JValue))).isSome = true) →
        ((handleFetch "doc.pdf" "use-cache" "raw" none (.ok [])).cacheWrites ≠ [] ↔
          ("use-cache" : String) ≠ "bypass-cache"))) :=
  ⟨⟨by decide, by decide⟩,
    fetch_cache_read_write_policy "doc.pdf" "raw" "use-cache" none []
      (by decide) (by decide)⟩

/-- C7 counterexample: with the valid strategy `refresh-cache` and a prior
result sitting in the cache, `handle_fetch` does NOT read it
(`cache.get` is called only under `cache_strategy == "use-cache"`),
falsifying "read exactly when use-cache or refresh-cache". -/
theorem fetch_refresh_cache_does_not_read :
    (handleFetch "doc.pdf" "refresh-cache" "raw" (some [("cached", .bool true)])
        (.ok [])).readCache = false ∧
    ("refresh-cache" : String) ∈ validStrategies ∧
    ("raw" : String) ∈ validFormats := by
  decide

/-- C5 (amended): `handle_extract` never caches a response carrying an
`error` key (every cached write is the shaped success response); both
handlers convert an exception escaping their body into a structured
`{error, type(, source)}` result without caching it; `handle_fetch` caches
nothing on a validation error; BUT an error response returned by the
URL/filesystem fetch step IS decorated and written to the cache whenever
the strategy is not `bypass-cache` — the un-amended claim fails there. -/
theorem error_responses_never_cached_except_fetch_body
    (targets : List String) (cachedE : Option (List (String × JValue)))
    (docFormat : Option String) (selected : Option RProvider)
    (exOut : Except (String × String) ExtractResultModel)
    (source cs rf : String) (cachedF : Option (List (String × JValue)))
    (msg ty : String) (result : List (String × JValue)) :
    (∀ w ∈ (handleExtract targets cachedE docFormat selected exOut).cacheWrites,
      hasKey w "error" = false) ∧
    (∀ e, exOut = Except.error e →
      targets.filter (fun t => t ∉ validTargets) = [] → cachedE = none →
      ∀ p, selected = some p →
        (handleExtract targets cachedE docFormat selected exOut).response =
          [("error", .str e.1), ("type", .str e.2)] ∧
        (handleExtract targets cachedE docFormat selected exOut).cacheWrites = []) ∧
    (cs ∈ validStrategies → rf ∈ validFormats →
      ¬(cs = "use-cache" ∧ cachedF.isSome = true) →
      (handleFetch source cs rf cachedF (.raised msg ty)).response =
        [("error", .str msg), ("type", .str ty), ("source", .str source)] ∧
      (handleFetch source cs rf cachedF (.raised msg ty)).cacheWrites = []) ∧
    (cs ∉ validStrategies ∨ rf ∉ validFormats →
      (handleFetch source cs rf cachedF (.ok result)).cacheWrites = []) ∧
    (cs ∈ validStrategies → rf ∈ validFormats → cs ≠ "bypass-cache" →
      ¬(cs = "use-cache" ∧ cachedF.isSome = true) → hasKey result "error" = true →
      (handleFetch source cs rf cachedF (.ok result)).cacheWrites =
        [fetchDecorate source cs rf result] ∧
      hasKey (fetchDecorate source cs rf result) "error" = true) := by
  refine ⟨?_, ?_, ?_, ?_, ?_⟩
  · intro w hw
    unfold handleExtract at hw
    by_cases hval : targets.filter (fun t => t ∉ validTargets) ≠ []
    · rw [if_pos hval] at hw
      simp at hw
    · rw [if_neg hval] at hw
      cases cachedE with
      | some r => simp at hw
      | none =>
        cases selected with
        | none => simp at hw
        | some p =>
          cases exOut with
          | error e => simp at hw
          | ok result =>
            simp only [List.mem_singleton] at hw
            subst hw
            exact extract_success_no_error p result _
  · intro e he hv hc p hp
    subst he
    subst hc
    subst hp
    have hval : handleExtract targets none docFormat (some p) (.error e) =
        { response := [("error", .str e.1), ("type", .str e.2)], cacheWrites := [] } := by
      unfold handleExtract
      rw [if_neg (not_not_intro hv)]
    rw [hval]
    exact ⟨rfl, rfl⟩
  · intro hcs hrf hno
    have hval : handleFetch source cs rf cachedF (.raised msg ty) =
        { response := [("error", .str msg), ("type", .str ty), ("source", .str source)],
          readCache := (cs = "use-cache" : Bool), cacheWrites := [] } := by
      unfold handleFetch
      rw [if_neg (not_not_intro hcs), if_neg (not_not_intro hrf)]
      by_cases hu : cs = "use-cache"
      · rw [if_pos hu]
        cases hcf : cachedF with
        | some r => exact absurd ⟨hu, by rw [hcf]; rfl⟩ hno
        | none => simp [fetchProceed, hu]
      · rw [if_neg hu]
        simp [fetchProceed, hu]
    rw [hval]
    exact ⟨rfl, rfl⟩
  · intro hbad
    unfold handleFetch
    rcases hbad with hcsBad | hrfBad
    · rw [if_pos hcsBad]
    · by_cases hcsBad : cs ∉ validStrategies
      · rw [if_pos hcsBad]
      · rw [if_neg hcsBad, if_pos hrfBad]
  · intro hcs hrf hb hno herr
    have hval : handleFetch source cs rf cachedF (.ok result) =
        { response := fetchDecorate source cs rf result,
          readCache := (cs = "use-cache" : Bool),
          cacheWrites := [fetchDecorate source cs rf result] } := by
      unfold handleFetch
      rw [if_neg (not_not_intro hcs), if_neg (not_not_intro hrf)]
      by_cases hu : cs = "use-cache"
      · rw [if_pos hu]
        cases hcf : cachedF with
        | some r => exact absurd ⟨hu, by rw [hcf]; rfl⟩ hno
        | none => simp [fetchProceed, hu, hb]
      · rw [if_neg hu]
        simp [fetchProceed, hu, hb]
    rw [hval]
    refine ⟨rfl, ?_⟩
    rw [hasKey_fetchDecorate_error]
    exact herr

/-- C5 counterexample: a missing local file makes the filesystem helper
return an `{error: FileNotFoundError, ...}` dict, and `handle_fetch` (with
the default `use-cache` strategy, cache empty) writes that error response
into the Generic Result Cache — the claim says error responses are never
stored. -/
theorem fetch_caches_error_response :
    ((handleFetch "/missing.txt" "use-cache" "raw" none
        (.ok (fetchFromFilesystem "/missing.txt" "raw" "auto" []
          ResolveOutcome.fileNotFound id (fun _ => .error "")))).cacheWrites.length = 1) ∧
    hasKey ((handleFetch "/missing.txt" "use-cache" "raw" none
        (.ok (fetchFromFilesystem "/missing.txt" "raw" "auto" []
          ResolveOutcome.fileNotFound id (fun _ => .error "")))).cacheWrites.headD [])
      "error" = true ∧
    ("use-cache" : String) ∈ validStrategies ∧ ("raw" : String) ∈ validFormats := by
  decide

end Docsray
